import Mathlib

/-!
# The n-th prime by a sieve of Eratosthenes (`timer/sieve.c`)

Shallow embedding of `sieve_of_eratosthenes` and `main`.

* C `int` values are integers; every `int` operation of the source is followed by
  `wrap32`, the reduction to the 32-bit two's-complement range. Where a result leaves that
  range the C program has undefined behaviour; the theorems about such runs state the
  overflow itself and what arithmetic modulo `2^32` makes of it.
* `is_prime` is a function from cell index to byte. `calloc(limit + 1, 1)` zeroes the
  cells `0 .. limit`; every other index holds what the surrounding memory (`heap`)
  holds, so the read of `is_prime[limit + 1]` that the scan can perform has a value.
* The value of `ceil(n * log(n) + n * log(log(n)))` is computed by the C library in
  floating point; it enters the kernel as the parameter `limit`. The real number it
  approximates is `rosser`.
* Loops run on fuel: `none` means that the fuel ran out before the loop was left.
* `refScan` and `nth_prime_ref` are not taken from the source: they transcribe the reference
  algorithm of the specification (section 4.2), with unbounded integers, and serve as the
  other side of the comparison with the code.
-/

namespace Sieve

/-- Value of a C `int` computation: the mathematical result reduced to the
32-bit two's-complement range. -/
def wrap32 (x : Int) : Int := (x + 2147483648) % 4294967296 - 2147483648

/-- One access to the byte array `is_prime`, by cell index. -/
inductive Access where
  | rd (k : Int)
  | wr (k : Int)
deriving DecidableEq

/-- Program state of the scan loop of `sieve_of_eratosthenes`: the byte array, `count`,
`i`, whether the loop was left through `break`, and the array accesses made so far
(most recent first). -/
structure State where
  mem : Int → Int
  count : Int
  i : Int
  broke : Bool
  trace : List Access

/-- The multiples loop `for (int j = i * 2; j <= limit; j += i) is_prime[j] = 1;`,
entered with the current value of `j`. -/
def mark (limit i : Int) : Nat → Int → State → Option State
  | 0, _, _ => none
  | fuel + 1, j, s =>
    if j ≤ limit then
      mark limit i fuel (wrap32 (j + i))
        { s with mem := Function.update s.mem j 1, trace := Access.wr j :: s.trace }
    else some s

/-- Result of one pass through the `for` statement of the scan: the body ran and `i++`
follows (`next`), the loop was left by its condition or by `break` (`done`), or the
multiples loop did not finish within the fuel (`hang`). -/
inductive Step where
  | next (s : State)
  | done (s : State)
  | hang

/-- One evaluation of `i <= limit + 1` followed, when it holds, by the loop body
`if (is_prime[i] == 0) { if (count++ == n) break; <multiples loop> }` and `i++`. -/
def scanStep (n limit : Int) (fuel : Nat) (s : State) : Step :=
  if s.i ≤ wrap32 (limit + 1) then
    let s1 : State := { s with trace := Access.rd s.i :: s.trace }
    if s1.mem s1.i = 0 then
      let s2 : State := { s1 with count := wrap32 (s1.count + 1) }
      if s1.count = n then Step.done { s2 with broke := true }
      else
        match mark limit s2.i fuel (wrap32 (s2.i * 2)) s2 with
        | none => Step.hang
        | some s3 => Step.next { s3 with i := wrap32 (s3.i + 1) }
    else Step.next { s1 with i := wrap32 (s1.i + 1) }
  else Step.done s

/-- The scan loop `for (; i <= limit + 1; i++) ...`, run to its exit. -/
def scan (n limit : Int) (fuel : Nat) : Nat → State → Option State
  | 0, _ => none
  | k + 1, s =>
    match scanStep n limit fuel s with
    | Step.next t => scan n limit fuel k t
    | Step.done t => some t
    | Step.hang => none

/-- State in which the scan loop evaluates its condition for the `k`-th time (counting
from 0); `none` when the loop has been left before. -/
def loopHead (n limit : Int) (fuel : Nat) (s0 : State) : Nat → Option State
  | 0 => some s0
  | k + 1 =>
    match loopHead n limit fuel s0 k with
    | none => none
    | some s =>
      match scanStep n limit fuel s with
      | Step.next t => some t
      | _ => none

/-- State after `calloc(limit + 1, sizeof(char))` succeeded and `int count = 1, i = 2;`. -/
def initState (limit : Int) (heap : Int → Int) : State :=
  { mem := fun k => if 0 ≤ k ∧ k ≤ limit then 0 else heap k
    count := 1
    i := 2
    broke := false
    trace := [] }

/-- The kernel from the allocation to the exit of the scan loop. -/
def run (fuel : Nat) (limit : Int) (heap : Int → Int) (n : Int) : Option State :=
  scan n limit fuel fuel (initState limit heap)

/-- How a call of `sieve_of_eratosthenes` ends: `return v`, or `exit(code)` after writing
`err` to standard error. -/
inductive Outcome where
  | ret (v : Int)
  | exit (code : Int) (err : String)
deriving DecidableEq

/-- The function `sieve_of_eratosthenes`. `limit` is the value assigned to `limit`,
`allocOk` tells whether `calloc` returned a non-null pointer. -/
def sieve_of_eratosthenes (fuel : Nat) (limit : Int) (allocOk : Bool) (heap : Int → Int)
    (n : Int) : Option Outcome :=
  if n = 1 then some (Outcome.ret 2)
  else if allocOk = false then
    some (Outcome.exit 1 ("limit = " ++ toString limit ++ "\n" ++ "Memory allocation failed.\n"))
  else (run fuel limit heap n).map fun s => Outcome.ret s.i

/-- Trial division: `true` when no `m` with `d ≤ m`, `m * m ≤ n` among the next `fuel`
candidates divides `n`. -/
def trialFrom (n : Nat) : Nat → Nat → Bool
  | 0, _ => true
  | fuel + 1, d =>
    bif Nat.blt n (d * d) then true
    else bif Nat.beq (n % d) 0 then false
    else trialFrom n fuel (d + 1)

/-- Executable primality test by trial division. -/
def trialPrime (n : Nat) : Bool := Nat.ble 2 n && trialFrom n n 2

/-- The primes below 97. -/
def smallPrimes : List Nat :=
  [2, 3, 5, 7, 11, 13, 17, 19, 23, 29, 31, 37, 41, 43, 47, 53, 59, 61, 67, 71, 73, 79, 83, 89]

/-- Primality test for `89 < n < 97 * 97`: no prime below 97 divides `n`, that is, `n` is
coprime to the product of these primes. -/
def coprimeTest (n : Nat) : Bool := Nat.beq (Nat.gcd n 23768741896345550770650537601358310) 1

/-- Number of `x` with `lo ≤ x < lo + 2 ^ d`, `x < hi` that pass the test `t`, by halving
the window. -/
def countIn (t : Nat → Bool) (hi : Nat) : Nat → Nat → Nat
  | 0, lo => bif Nat.blt lo hi && t lo then 1 else 0
  | d + 1, lo =>
    bif Nat.blt lo hi then countIn t hi d lo + countIn t hi d (lo + 2 ^ d) else 0

/-- Number of primes below `hi`, for `hi ≤ 8192`: trial division below 128, the coprimality
test from 128 on. -/
def primeCountBelow (hi : Nat) : Nat :=
  countIn trialPrime hi 7 0 + countIn coprimeTest hi 7 128 + countIn coprimeTest hi 8 256 +
    countIn coprimeTest hi 9 512 + countIn coprimeTest hi 10 1024 +
    countIn coprimeTest hi 11 2048 + countIn coprimeTest hi 12 4096

/-- Number of primes in the closed range `[2, i]`. -/
def primesUpTo (i : Nat) : Nat := ((Finset.Icc 2 i).filter Nat.Prime).card

/-- C library `isspace` in the "C" locale. -/
def isspace (c : Char) : Bool :=
  c.toNat = 32 || (9 ≤ c.toNat && c.toNat ≤ 13)

/-- Value of the longest prefix of decimal digits, accumulated left to right. -/
def digitsValue : Nat → List Char → Nat
  | acc, [] => acc
  | acc, c :: cs =>
    if c.isDigit then digitsValue (acc * 10 + (c.toNat - 48)) cs else acc

/-- C library `strtol(s, NULL, 10)` with 64-bit `long`: leading white space is skipped,
an optional sign is read, then the longest run of decimal digits (none gives 0); values
outside the range of `long` are clamped. -/
def strtol (s : List Char) : Int :=
  match s.dropWhile isspace with
  | '-' :: r => max (-(digitsValue 0 r : Int)) (-9223372036854775808)
  | '+' :: r => min (digitsValue 0 r : Int) 9223372036854775807
  | r => min (digitsValue 0 r : Int) 9223372036854775807

/-- C library `atoi`: `(int) strtol(s, NULL, 10)`. -/
def atoi (s : String) : Int := wrap32 (strtol s.toList)

/-- What a run of the program leaves behind: exit status, standard output, standard error,
and the arguments with which `sieve_of_eratosthenes` was called. -/
structure Exit where
  status : Int
  out : String
  err : String
  calls : List Int
deriving DecidableEq

/-- The function `main`. `argv` holds the program name followed by the arguments;
`lim n` is the value the kernel computes for `limit` when called with `n`. -/
def main (fuel : Nat) (lim : Int → Int) (allocOk : Bool) (heap : Int → Int)
    (argv : List String) : Option Exit :=
  if argv.length ≠ 2 then
    some { status := 1, out := "", err := "Invalid number of arguments\n", calls := [] }
  else
    let n := atoi (argv.getD 1 "")
    if n ≤ 0 then
      some { status := 1, out := "",
             err := "Invalid input. Please enter a positive integer.\n", calls := [] }
    else
      match sieve_of_eratosthenes fuel (lim n) allocOk heap n with
      | none => none
      | some (Outcome.exit code e) => some { status := code, out := "", err := e, calls := [n] }
      | some (Outcome.ret r) =>
        some { status := 0,
               out := "The prime no " ++ toString n ++ " is: " ++ toString r ++ "\n",
               err := "", calls := [n] }

/-- A decimal integer literal: an optional sign followed by one or more digits and
nothing else. -/
def isIntegerLiteral (s : String) : Bool :=
  match s.toList with
  | '-' :: r => !r.isEmpty && r.all Char.isDigit
  | '+' :: r => !r.isEmpty && r.all Char.isDigit
  | r => !r.isEmpty && r.all Char.isDigit

/-- The real number `n·ln n + n·ln ln n` that the C expression
`n * log(n) + n * log(log(n))` approximates in double precision. -/
noncomputable def rosser (n : Nat) : Real :=
  (n : Real) * Real.log n + (n : Real) * Real.log (Real.log n)

/-- The integer `L` is a value that `int limit = ceil(n * log(n) + n * log(log(n)))` can take: the
ceiling of a real number within 1/16 of the exact value (double rounding errors are many
orders of magnitude smaller). -/
def IsLimit (n : Nat) (L : Int) : Prop :=
  ∃ x : Real, |x - rosser n| ≤ 1 / 16 ∧ L = ⌈x⌉

/-- Cell `z` has been crossed out by some prime below `m`. -/
def Marked (m : Nat) (z : Int) : Prop :=
  ∃ p : Nat, p.Prime ∧ p < m ∧ (p : Int) ∣ z ∧ 2 * (p : Int) ≤ z

/-- Contents of the byte array when the scan stands at index `m`. -/
def MemInv (limit : Int) (heap : Int → Int) (m : Nat) (mem : Int → Int) : Prop :=
  ∀ z : Int,
    ((0 ≤ z ∧ z ≤ limit) → (Marked m z ∧ mem z = 1) ∨ (¬ Marked m z ∧ mem z = 0)) ∧
    (¬ (0 ≤ z ∧ z ≤ limit) → mem z = heap z)

/-- Value of `j` when the multiples loop `for (int j = ...; j <= limit; j += i)`, entered
with the given `j`, evaluates its condition for the `k`-th time (counting from 0); `none`
when the loop has been left before. -/
def markHead (limit i : Int) : Nat → Int → Option Int
  | 0, j => some j
  | k + 1, j => if j ≤ limit then markHead limit i k (wrap32 (j + i)) else none

/-- Number of reads of `is_prime` in a list of accesses. -/
def reads : List Access → Nat
  | [] => 0
  | Access.rd _ :: tr => reads tr + 1
  | Access.wr _ :: tr => reads tr

/-- Number of unmarked cells met by the scan in its first `k` passes: the passes `m < k` in
which the read of `is_prime[i]` gave 0. -/
def unmarkedMet (n limit : Int) (fuel : Nat) (s0 : State) : Nat → Nat
  | 0 => 0
  | k + 1 =>
    unmarkedMet n limit fuel s0 k +
      match loopHead n limit fuel s0 k with
      | some s => if s.mem s.i = 0 then 1 else 0
      | none => 0

/-- Step 3 of the reference algorithm of the specification (section 4.2), standing at index
`i` with `m` indices left up to `L`: `c` counts the primes discovered so far, starting from
0; an unmarked index increments `c`, is returned when `c` has become `n`, and otherwise
has its multiples from `2i` up to `L` marked. `none`: the scan ended without returning. -/
def refScan (n L : Int) : Nat → Int → Int → (Int → Bool) → Option Int
  | 0, _, _, _ => none
  | m + 1, i, c, bitmap =>
    if bitmap i = false then
      if c + 1 = n then some i
      else refScan n L m (i + 1) (c + 1)
        (fun k => if 2 * i ≤ k ∧ k ≤ L ∧ i ∣ k then true else bitmap k)
    else refScan n L m (i + 1) c bitmap

/-- The reference algorithm `nth_prime` of the specification (section 4.2) run with the bound
`L`: `n = 1` returns 2; otherwise all cells start false, `c = 0`, and `i` is scanned over
`[2, L]`. -/
def nth_prime_ref (L n : Int) : Option Int :=
  if n = 1 then some 2 else refScan n L (L - 1).toNat 2 0 (fun _ => false)

theorem wrap32_of_range (x : Int) (h1 : -2147483648 ≤ x) (h2 : x < 2147483648) :
    wrap32 x = x := by
  unfold wrap32
  omega

theorem mark_spec (L i : Int) (hi : 1 ≤ i) (hLi : L + i < 2147483648) :
    ∀ (fuel : Nat) (j : Int) (s t : State), 0 ≤ j → mark L i fuel j s = some t →
      t.count = s.count ∧ t.i = s.i ∧ t.broke = s.broke ∧
      ∀ z : Int, t.mem z = if j ≤ z ∧ z ≤ L ∧ i ∣ z - j then 1 else s.mem z := by
  intro fuel
  induction fuel with
  | zero => intro j s t _ h; simp [mark] at h
  | succ f ih =>
    intro j s t hj h
    unfold mark at h
    by_cases hjl : j ≤ L
    · rw [if_pos hjl, wrap32_of_range (j + i) (by omega) (by omega)] at h
      obtain ⟨h1, h2, h3, h4⟩ := ih (j + i) _ t (by omega) h
      refine ⟨h1, h2, h3, fun z => ?_⟩
      rw [h4 z]
      by_cases hz : z = j
      · subst hz
        have : ¬ (z + i ≤ z ∧ z ≤ L ∧ i ∣ z - (z + i)) := by omega
        rw [if_neg this]
        simp [hjl]
      · have hupd : Function.update s.mem j 1 z = s.mem z := Function.update_noteq hz _ _
        simp only [hupd]
        have hiff : (j + i ≤ z ∧ z ≤ L ∧ i ∣ z - (j + i)) ↔ (j ≤ z ∧ z ≤ L ∧ i ∣ z - j) := by
          constructor
          · rintro ⟨a, b, c⟩
            refine ⟨by omega, b, ?_⟩
            have : z - j = (z - (j + i)) + i := by ring
            rw [this]
            exact dvd_add c (dvd_refl i)
          · rintro ⟨a, b, c⟩
            have hpos : 0 < z - j := by omega
            have hle : i ≤ z - j := Int.le_of_dvd hpos c
            refine ⟨by omega, b, ?_⟩
            have : z - (j + i) = (z - j) - i := by ring
            rw [this]
            exact dvd_sub c (dvd_refl i)
        by_cases hc : j ≤ z ∧ z ≤ L ∧ i ∣ z - j
        · rw [if_pos hc, if_pos (hiff.mpr hc)]
        · rw [if_neg hc, if_neg (fun h => hc (hiff.mp h))]
    · rw [if_neg hjl] at h
      cases h
      refine ⟨rfl, rfl, rfl, fun z => ?_⟩
      have : ¬ (j ≤ z ∧ z ≤ L ∧ i ∣ z - j) := by omega
      rw [if_neg this]

theorem mark_total (L i : Int) (hi : 1 ≤ i) (hLi : L + i < 2147483648) :
    ∀ (fuel : Nat) (j : Int) (s : State), 0 ≤ j → 0 < fuel → L + 1 - j < fuel →
      ∃ t, mark L i fuel j s = some t := by
  intro fuel
  induction fuel with
  | zero => intro j s hj h0 h; exact absurd h0 (by decide)
  | succ f ih =>
    intro j s hj _ h
    unfold mark
    by_cases hjl : j ≤ L
    · rw [if_pos hjl, wrap32_of_range (j + i) (by omega) (by omega)]
      push_cast at h
      apply ih
      · omega
      · omega
      · omega
    · rw [if_neg hjl]
      exact ⟨s, rfl⟩

theorem scanStep_next (n L : Int) (fuel : Nat) (s t : State)
    (hL0 : 0 ≤ L) (hL : L + 2 ≤ 1073741824) (hi2 : 2 ≤ s.i)
    (hc0 : 0 ≤ s.count) (hcU : s.count ≤ 1073741824)
    (h : scanStep n L fuel s = Step.next t) :
    s.i ≤ L + 1 ∧ t.i = s.i + 1 ∧ t.broke = s.broke ∧
      ((s.mem s.i ≠ 0 ∧ t.mem = s.mem ∧ t.count = s.count) ∨
       (s.mem s.i = 0 ∧ s.count ≠ n ∧ t.count = s.count + 1 ∧
          ∀ z : Int, t.mem z =
            if s.i * 2 ≤ z ∧ z ≤ L ∧ s.i ∣ z - s.i * 2 then 1 else s.mem z)) := by
  unfold scanStep at h
  rw [wrap32_of_range (L + 1) (by omega) (by omega)] at h
  by_cases h1 : s.i ≤ L + 1
  · rw [if_pos h1] at h
    refine ⟨h1, ?_⟩
    dsimp only at h
    by_cases h2 : s.mem s.i = 0
    · rw [if_pos h2] at h
      by_cases h3 : s.count = n
      · rw [if_pos h3] at h
        cases h
      · rw [if_neg h3] at h
        rw [wrap32_of_range (s.count + 1) (by omega) (by omega),
          wrap32_of_range (s.i * 2) (by omega) (by omega)] at h
        cases hm : mark L s.i fuel (s.i * 2)
            { mem := s.mem, count := s.count + 1, i := s.i, broke := s.broke,
              trace := Access.rd s.i :: s.trace } with
        | none => rw [hm] at h; cases h
        | some u =>
          rw [hm] at h
          obtain ⟨m1, m2, m3, m4⟩ := mark_spec L s.i (by omega) (by omega) fuel _ _ u
            (by omega) hm
          dsimp only at m1 m2 m3 m4 h
          rw [wrap32_of_range (u.i + 1) (by omega) (by omega)] at h
          injection h with h
          subst h
          exact ⟨by simp [m2], m3, Or.inr ⟨h2, h3, m1, m4⟩⟩
    · rw [if_neg h2] at h
      rw [wrap32_of_range (s.i + 1) (by omega) (by omega)] at h
      injection h with h
      subst h
      exact ⟨rfl, rfl, Or.inl ⟨h2, rfl, rfl⟩⟩
  · rw [if_neg h1] at h
    cases h

theorem scanStep_done (n L : Int) (fuel : Nat) (s t : State)
    (hL0 : 0 ≤ L) (hL : L + 2 ≤ 1073741824)
    (hc0 : 0 ≤ s.count) (hcU : s.count ≤ 1073741824)
    (h : scanStep n L fuel s = Step.done t) :
    (L + 1 < s.i ∧ t = s) ∨
    (s.i ≤ L + 1 ∧ s.mem s.i = 0 ∧ s.count = n ∧ t.i = s.i ∧ t.count = s.count + 1 ∧
      t.broke = true ∧ t.mem = s.mem) := by
  unfold scanStep at h
  rw [wrap32_of_range (L + 1) (by omega) (by omega)] at h
  by_cases h1 : s.i ≤ L + 1
  · rw [if_pos h1] at h
    dsimp only at h
    by_cases h2 : s.mem s.i = 0
    · rw [if_pos h2] at h
      by_cases h3 : s.count = n
      · rw [if_pos h3] at h
        rw [wrap32_of_range (s.count + 1) (by omega) (by omega)] at h
        injection h with h
        subst h
        exact Or.inr ⟨h1, h2, h3, rfl, rfl, rfl, rfl⟩
      · rw [if_neg h3] at h
        split at h <;> cases h
    · rw [if_neg h2] at h
      cases h
  · rw [if_neg h1] at h
    injection h with h
    exact Or.inl ⟨by omega, h.symm⟩

theorem scanStep_break (n L : Int) (fuel : Nat) (s : State)
    (hL0 : 0 ≤ L) (hL : L + 2 ≤ 1073741824)
    (hc0 : 0 ≤ s.count) (hcU : s.count ≤ 1073741824)
    (h1 : s.i ≤ L + 1) (h2 : s.mem s.i = 0) (h3 : s.count = n) :
    ∃ t, scanStep n L fuel s = Step.done t ∧ t.i = s.i ∧ t.count = n + 1 ∧
      t.broke = true ∧ t.mem = s.mem := by
  unfold scanStep
  rw [wrap32_of_range (L + 1) (by omega) (by omega), if_pos h1]
  dsimp only
  rw [if_pos h2, if_pos h3, wrap32_of_range (s.count + 1) (by omega) (by omega)]
  exact ⟨_, rfl, rfl, by simp [h3], rfl, rfl⟩

theorem scanStep_progress (n L : Int) (fuel : Nat) (s : State)
    (hL0 : 0 ≤ L) (hL : L + 2 ≤ 1073741824) (hf : L + 2 ≤ fuel)
    (hi2 : 2 ≤ s.i) (h1 : s.i ≤ L + 1)
    (h3 : s.mem s.i = 0 → s.count ≠ n) :
    ∃ t, scanStep n L fuel s = Step.next t := by
  unfold scanStep
  rw [wrap32_of_range (L + 1) (by omega) (by omega), if_pos h1]
  dsimp only
  by_cases h2 : s.mem s.i = 0
  · rw [if_pos h2, if_neg (h3 h2), wrap32_of_range (s.i * 2) (by omega) (by omega)]
    obtain ⟨u, hu⟩ := mark_total L s.i (by omega) (by omega) fuel (s.i * 2)
      { mem := s.mem, count := wrap32 (s.count + 1), i := s.i, broke := s.broke,
        trace := Access.rd s.i :: s.trace } (by omega) (by omega) (by omega)
    rw [hu]
    exact ⟨_, rfl⟩
  · rw [if_neg h2]
    exact ⟨_, rfl⟩

theorem marked_succ (m : Nat) (z : Int) :
    Marked (m + 1) z ↔ Marked m z ∨ (m.Prime ∧ (m : Int) ∣ z ∧ 2 * (m : Int) ≤ z) := by
  constructor
  · rintro ⟨p, hp, hlt, hd, h2⟩
    rcases Nat.lt_succ_iff_lt_or_eq.mp hlt with h | h
    · exact Or.inl ⟨p, hp, h, hd, h2⟩
    · subst h
      exact Or.inr ⟨hp, hd, h2⟩
  · rintro (⟨p, hp, hlt, hd, h2⟩ | ⟨hp, hd, h2⟩)
    · exact ⟨p, hp, Nat.lt_succ_of_lt hlt, hd, h2⟩
    · exact ⟨m, hp, Nat.lt_succ_self m, hd, h2⟩

theorem marked_self (m : Nat) (hm : 2 ≤ m) : ¬ Marked m (m : Int) ↔ m.Prime := by
  constructor
  · intro h
    by_contra hnp
    have hp : (Nat.minFac m).Prime := Nat.minFac_prime (by omega)
    have hd : Nat.minFac m ∣ m := Nat.minFac_dvd m
    have hle : Nat.minFac m ≤ m := Nat.minFac_le (by omega)
    have hne : Nat.minFac m ≠ m := fun e => hnp (e ▸ hp)
    obtain ⟨c, hc⟩ := hd
    have hp2 : 2 ≤ Nat.minFac m := hp.two_le
    have hc2 : 2 ≤ c := by
      rcases Nat.lt_or_ge c 2 with h2 | h2
      · interval_cases c
        · omega
        · omega
      · exact h2
    have h2p : 2 * Nat.minFac m ≤ m := by
      calc 2 * Nat.minFac m = Nat.minFac m * 2 := Nat.mul_comm _ _
        _ ≤ Nat.minFac m * c := Nat.mul_le_mul_left _ hc2
        _ = m := hc.symm
    apply h
    refine ⟨Nat.minFac m, hp, by omega, ?_, ?_⟩
    · exact Int.natCast_dvd_natCast.mpr (Nat.minFac_dvd m)
    · exact_mod_cast h2p
  · rintro hp ⟨p, hpp, hlt, hd, _⟩
    have hd2 : p ∣ m := Int.natCast_dvd_natCast.mp hd
    rcases hp.eq_one_or_self_of_dvd p hd2 with h | h
    · exact hpp.one_lt.ne (h.symm)
    · omega

theorem loopHead_succ (n L : Int) (fuel : Nat) (s0 t : State) (k : Nat) :
    loopHead n L fuel s0 (k + 1) = some t ↔
      ∃ s, loopHead n L fuel s0 k = some s ∧ scanStep n L fuel s = Step.next t := by
  constructor
  · intro h
    rw [loopHead] at h
    cases hk : loopHead n L fuel s0 k with
    | none => rw [hk] at h; cases h
    | some s =>
      rw [hk] at h
      dsimp only at h
      cases hs : scanStep n L fuel s with
      | next u => rw [hs] at h; injection h with h; subst h; exact ⟨s, rfl, hs⟩
      | done u => rw [hs] at h; cases h
      | hang => rw [hs] at h; cases h
  · rintro ⟨s, h1, h2⟩
    rw [loopHead, h1]
    dsimp only
    rw [h2]

theorem head_bounds (n L : Int) (fuel : Nat) (heap : Int → Int)
    (hL0 : 0 ≤ L) (hL : L + 2 ≤ 1073741824) :
    ∀ (k : Nat) (s : State), loopHead n L fuel (initState L heap) k = some s →
      s.i = (k : Int) + 2 ∧ (k : Int) ≤ L ∧ 1 ≤ s.count ∧ s.count ≤ (k : Int) + 1 ∧
        s.broke = false := by
  intro k
  induction k with
  | zero =>
    intro s h
    simp only [loopHead, Option.some.injEq] at h
    subst h
    simp [initState, hL0]
  | succ k ih =>
    intro t h
    obtain ⟨s, hs, hst⟩ := (loopHead_succ n L fuel _ t k).mp h
    obtain ⟨a1, a2, a3, a4, a5⟩ := ih s hs
    obtain ⟨b1, b2, b3, b4⟩ := scanStep_next n L fuel s t hL0 hL (by omega) (by omega)
      (by omega) hst
    push_cast
    refine ⟨by omega, by omega, ?_, ?_, by rw [b3, a5]⟩
    · rcases b4 with ⟨_, _, c⟩ | ⟨_, _, c, _⟩ <;> omega
    · rcases b4 with ⟨_, _, c⟩ | ⟨_, _, c, _⟩ <;> omega

theorem count_prime_two : Nat.count Nat.Prime 2 = 0 := by
  simp [Nat.count_succ, Nat.not_prime_zero, Nat.not_prime_one]

theorem head_inv (n L : Int) (fuel : Nat) (heap : Int → Int)
    (hL0 : 0 ≤ L) (hL : L + 2 ≤ 1073741824) :
    ∀ (k : Nat) (s : State), loopHead n L fuel (initState L heap) k = some s →
      (k : Int) + 1 ≤ L →
      MemInv L heap (k + 2) s.mem ∧
      s.count = 1 + (Nat.count Nat.Prime (k + 2) : Int) ∧
      ∀ q : Nat, q < k + 2 → q.Prime → 1 + (Nat.count Nat.Prime q : Int) ≠ n := by
  intro k
  induction k with
  | zero =>
    intro s h _
    simp only [loopHead, Option.some.injEq] at h
    subst h
    refine ⟨?_, ?_, ?_⟩
    · intro z
      have hnm : ¬ Marked (0 + 2) z := by
        rintro ⟨p, hp, hlt, _, _⟩
        have := hp.two_le
        omega
      constructor
      · intro hz
        exact Or.inr ⟨hnm, by simp [initState, hz]⟩
      · intro hz
        simp [initState, hz]
    · simp [initState, count_prime_two]
    · intro q hq hp
      have := hp.two_le
      omega
  | succ k ih =>
    intro t h hk
    obtain ⟨s, hs, hst⟩ := (loopHead_succ n L fuel _ t k).mp h
    obtain ⟨a1, a2, a3, a4, a5⟩ := head_bounds n L fuel heap hL0 hL k s hs
    obtain ⟨b1, b2, b3, b4⟩ := scanStep_next n L fuel s t hL0 hL (by omega) (by omega)
      (by omega) hst
    push_cast at hk
    obtain ⟨i1, i2, i3⟩ := ih s hs (by omega)
    have hcell := (i1 s.i).1 (by omega)
    rw [a1] at hcell
    have hself := marked_self (k + 2) (by omega)
    push_cast at hself
    have hsucc : Nat.count Nat.Prime (k + 1 + 2) =
        Nat.count Nat.Prime (k + 2) + if (k + 2).Prime then 1 else 0 :=
      Nat.count_succ Nat.Prime (k + 2)
    rcases b4 with ⟨c1, c2, c3⟩ | ⟨c1, c2, c3, c4⟩
    · -- the cell is marked: `k + 2` is composite
      rw [a1] at c1
      have hmk : Marked (k + 2) ((k : Int) + 2) := by
        rcases hcell with ⟨m, _⟩ | ⟨_, m⟩
        · exact m
        · exact absurd m c1
      have hnp : ¬ (k + 2).Prime := fun hp => (hself.mpr hp) hmk
      have hmarked : ∀ z, Marked (k + 1 + 2) z ↔ Marked (k + 2) z := by
        intro z
        rw [show k + 1 + 2 = (k + 2) + 1 from rfl, marked_succ]
        constructor
        · rintro (m | ⟨hp, _⟩)
          · exact m
          · exact absurd hp hnp
        · exact Or.inl
      refine ⟨?_, ?_, ?_⟩
      · intro z
        rw [c2, hmarked z]
        exact i1 z
      · rw [c3, i2, hsucc, if_neg hnp]
        simp
      · intro q hq hp
        have hne : q ≠ k + 2 := fun e => hnp (e ▸ hp)
        exact i3 q (by omega) hp
    · -- the cell is unmarked: `k + 2` is prime and its multiples get crossed out
      rw [a1] at c1
      have hnm : ¬ Marked (k + 2) ((k : Int) + 2) := by
        rcases hcell with ⟨_, m⟩ | ⟨m, _⟩
        · rw [c1] at m; exact absurd m (by decide)
        · exact m
      have hp : (k + 2).Prime := hself.mp hnm
      refine ⟨?_, ?_, ?_⟩
      · intro z
        have hm := marked_succ (k + 2) z
        rw [show k + 1 + 2 = (k + 2) + 1 from rfl]
        rw [c4 z, a1]
        have hdv : ((k : Int) + 2) ∣ z - ((k : Int) + 2) * 2 ↔ ((k : Int) + 2) ∣ z := by
          constructor
          · intro h
            have : z = (z - ((k : Int) + 2) * 2) + ((k : Int) + 2) * 2 := by ring
            rw [this]
            exact dvd_add h (Dvd.intro _ rfl)
          · intro h
            exact dvd_sub h (Dvd.intro _ rfl)
        constructor
        · intro hz
          by_cases hc : ((k : Int) + 2) * 2 ≤ z ∧ z ≤ L ∧ ((k : Int) + 2) ∣ z - ((k : Int) + 2) * 2
          · rw [if_pos hc]
            refine Or.inl ⟨hm.mpr (Or.inr ⟨hp, ?_, ?_⟩), rfl⟩
            · push_cast; exact hdv.mp hc.2.2
            · push_cast; omega
          · rw [if_neg hc]
            rcases (i1 z).1 hz with ⟨m, e⟩ | ⟨m, e⟩
            · exact Or.inl ⟨hm.mpr (Or.inl m), e⟩
            · refine Or.inr ⟨?_, e⟩
              intro hmk
              rcases hm.mp hmk with m2 | ⟨_, d, l⟩
              · exact m m2
              · push_cast at d l
                exact hc ⟨by omega, hz.2, hdv.mpr d⟩
        · intro hz
          have hc : ¬ (((k : Int) + 2) * 2 ≤ z ∧ z ≤ L ∧
              ((k : Int) + 2) ∣ z - ((k : Int) + 2) * 2) := by
            intro hc
            exact hz ⟨by omega, hc.2.1⟩
          rw [if_neg hc]
          exact (i1 z).2 hz
      · rw [c3, i2, hsucc, if_pos hp]
        push_cast
        ring
      · intro q hq hpq
        by_cases hne : q = k + 2
        · subst hne
          rw [← i2]
          exact c2
        · exact i3 q (by omega) hpq

theorem loopHead_shift (n L : Int) (fuel : Nat) (s0 : State) (k : Nat) :
    loopHead n L fuel s0 (k + 1) =
      match scanStep n L fuel s0 with
      | Step.next u => loopHead n L fuel u k
      | _ => none := by
  induction k with
  | zero =>
    simp only [loopHead]
  | succ k ih =>
    rw [loopHead, ih]
    cases scanStep n L fuel s0 with
    | next u => simp only [loopHead]
    | done u => rfl
    | hang => rfl

theorem scan_of_head (n L : Int) (fuel : Nat) :
    ∀ (k f : Nat) (s0 s t : State), loopHead n L fuel s0 k = some s →
      scanStep n L fuel s = Step.done t → k < f → scan n L fuel f s0 = some t := by
  intro k
  induction k with
  | zero =>
    intro f s0 s t h hd hf
    simp only [loopHead, Option.some.injEq] at h
    subst h
    obtain ⟨g, rfl⟩ : ∃ g, f = g + 1 := ⟨f - 1, by omega⟩
    simp only [scan, hd]
  | succ k ih =>
    intro f s0 s t h hd hf
    obtain ⟨g, rfl⟩ : ∃ g, f = g + 1 := ⟨f - 1, by omega⟩
    rw [loopHead_shift] at h
    simp only [scan]
    cases hs : scanStep n L fuel s0 with
    | next u =>
      rw [hs] at h
      exact ih g u s t h hd (by omega)
    | done u => rw [hs] at h; cases h
    | hang => rw [hs] at h; cases h

theorem head_of_scan (n L : Int) (fuel : Nat) :
    ∀ (f : Nat) (s0 t : State), scan n L fuel f s0 = some t →
      ∃ k s, loopHead n L fuel s0 k = some s ∧ scanStep n L fuel s = Step.done t := by
  intro f
  induction f with
  | zero => intro s0 t h; simp [scan] at h
  | succ f ih =>
    intro s0 t h
    simp only [scan] at h
    cases hs : scanStep n L fuel s0 with
    | next u =>
      rw [hs] at h
      obtain ⟨k, s, h1, h2⟩ := ih u t h
      refine ⟨k + 1, s, ?_, h2⟩
      rw [loopHead_shift, hs]
      exact h1
    | done u =>
      rw [hs] at h
      injection h with h
      subst h
      exact ⟨0, s0, rfl, hs⟩
    | hang => rw [hs] at h; cases h

theorem count_nth_prime (N : Nat) : Nat.count Nat.Prime (Nat.nth Nat.Prime N) = N :=
  Nat.count_nth_of_infinite Nat.infinite_setOf_prime N

theorem head_exists (N : Nat) (L : Int) (fuel : Nat) (heap : Int → Int)
    (hL0 : 0 ≤ L) (hL : L + 2 ≤ 1073741824) (hf : L + 2 ≤ fuel) :
    ∀ k : Nat, k + 2 ≤ Nat.nth Nat.Prime (N - 1) → (k : Int) + 1 ≤ L →
      ∃ s, loopHead (N : Int) L fuel (initState L heap) k = some s := by
  intro k
  induction k with
  | zero => intro _ _; exact ⟨_, rfl⟩
  | succ k ih =>
    intro hk hkL
    push_cast at hkL
    obtain ⟨s, hs⟩ := ih (by omega) (by omega)
    obtain ⟨a1, a2, a3, a4, a5⟩ := head_bounds N L fuel heap hL0 hL k s hs
    obtain ⟨i1, i2, i3⟩ := head_inv N L fuel heap hL0 hL k s hs (by omega)
    have hmono : Nat.count Nat.Prime (k + 2 + 1) ≤ Nat.count Nat.Prime (Nat.nth Nat.Prime (N - 1)) :=
      Nat.count_monotone Nat.Prime (by omega)
    rw [count_nth_prime, Nat.count_succ] at hmono
    have hne : s.mem s.i = 0 → s.count ≠ (N : Int) := by
      intro h0
      have hcell := (i1 s.i).1 (by omega)
      rw [a1] at hcell h0
      have hnm : ¬ Marked (k + 2) ((k : Int) + 2) := by
        rcases hcell with ⟨_, m⟩ | ⟨m, _⟩
        · rw [h0] at m; exact absurd m (by decide)
        · exact m
      have hself := marked_self (k + 2) (by omega)
      push_cast at hself
      have hp : (k + 2).Prime := hself.mp hnm
      rw [if_pos hp] at hmono
      rw [i2]
      omega
    obtain ⟨t, ht⟩ := scanStep_progress N L fuel s hL0 hL hf (by omega) (by omega) hne
    exact ⟨t, (loopHead_succ N L fuel _ t k).mpr ⟨s, hs, ht⟩⟩

/-- With a limit that covers the `N`-th prime, the scan leaves through the `break`
at that prime. -/
theorem run_valid_limit (N : Nat) (hN : 1 ≤ N) (L : Int) (fuel : Nat) (heap : Int → Int)
    (hL : L + 2 ≤ 1073741824) (hf : L + 2 ≤ fuel)
    (hP : (Nat.nth Nat.Prime (N - 1) : Int) ≤ L) :
    ∃ t, run fuel L heap N = some t ∧ t.i = (Nat.nth Nat.Prime (N - 1) : Int) ∧
      t.broke = true ∧ t.count = (N : Int) + 1 := by
  have hL0 : 0 ≤ L := le_trans (Int.natCast_nonneg _) hP
  have hprime : (Nat.nth Nat.Prime (N - 1)).Prime := Nat.prime_nth_prime _
  have h2 := hprime.two_le
  obtain ⟨k, hk⟩ : ∃ k, Nat.nth Nat.Prime (N - 1) = k + 2 := ⟨_, (Nat.sub_add_cancel h2).symm⟩
  have hkL : (k : Int) + 2 ≤ L := by
    rw [hk] at hP
    push_cast at hP
    exact hP
  obtain ⟨s, hs⟩ := head_exists N L fuel heap hL0 hL hf k (by omega) (by omega)
  obtain ⟨a1, a2, a3, a4, a5⟩ := head_bounds N L fuel heap hL0 hL k s hs
  obtain ⟨i1, i2, i3⟩ := head_inv N L fuel heap hL0 hL k s hs (by omega)
  have hcell := (i1 s.i).1 (by omega)
  rw [a1] at hcell
  have hself := marked_self (k + 2) (by omega)
  push_cast at hself
  have hcnt : Nat.count Nat.Prime (k + 2) = N - 1 := by
    rw [← hk]
    exact count_nth_prime _
  have h0 : s.mem s.i = 0 := by
    rw [a1]
    rcases hcell with ⟨m, _⟩ | ⟨_, m⟩
    · exact absurd m (hself.mpr (hk ▸ hprime))
    · exact m
  have hc : s.count = (N : Int) := by
    rw [i2, hcnt]
    omega
  obtain ⟨t, ht, t1, t2, t3, _⟩ := scanStep_break N L fuel s hL0 hL (by omega) (by omega)
    (by omega) h0 hc
  refine ⟨t, ?_, ?_, t3, t2⟩
  · unfold run
    apply scan_of_head N L fuel k fuel _ s t hs ht
    have : (k : Int) < fuel := by omega
    exact_mod_cast this
  · rw [t1, a1, hk]
    push_cast
    rfl

theorem scanStep_exit (n L : Int) (fuel : Nat) (s : State)
    (hL0 : -2147483648 ≤ L) (hL : L + 2 ≤ 1073741824) (h : L + 1 < s.i) :
    scanStep n L fuel s = Step.done s := by
  unfold scanStep
  rw [wrap32_of_range (L + 1) (by omega) (by omega), if_neg (by omega)]

/-- With a limit below the `N`-th prime the scan reaches the cell one past the bitmap;
it leaves through the `break` there when that foreign cell holds zero and the count
stands at `N`, and otherwise runs off the end of the range with `i = L + 2`. -/
theorem run_short_limit (N : Nat) (L : Int) (fuel : Nat) (heap : Int → Int)
    (hL0 : 0 ≤ L) (hL : L + 2 ≤ 1073741824) (hf : L + 2 ≤ fuel)
    (hP : L < (Nat.nth Nat.Prime (N - 1) : Int)) :
    ∃ t, run fuel L heap N = some t ∧
      ((1 ≤ L ∧ heap (L + 1) = 0 ∧ 1 + (Nat.count Nat.Prime (L.toNat + 1) : Int) = N ∧
          t.i = L + 1 ∧ t.broke = true ∧ t.count = (N : Int) + 1) ∨
       (¬ (1 ≤ L ∧ heap (L + 1) = 0 ∧ 1 + (Nat.count Nat.Prime (L.toNat + 1) : Int) = N) ∧
          t.i = L + 2 ∧ t.broke = false)) := by
  by_cases h1 : 1 ≤ L
  · obtain ⟨k, hk⟩ : ∃ k : Nat, L = (k : Int) + 1 := ⟨(L - 1).toNat, by omega⟩
    have hkP : k + 2 ≤ Nat.nth Nat.Prime (N - 1) := by
      have : (k : Int) + 2 ≤ (Nat.nth Nat.Prime (N - 1) : Int) := by omega
      exact_mod_cast this
    obtain ⟨s, hs⟩ := head_exists N L fuel heap hL0 hL hf k hkP (by omega)
    obtain ⟨a1, a2, a3, a4, a5⟩ := head_bounds N L fuel heap hL0 hL k s hs
    obtain ⟨i1, i2, i3⟩ := head_inv N L fuel heap hL0 hL k s hs (by omega)
    have hcell : s.mem s.i = heap (L + 1) := by
      have := (i1 s.i).2 (by omega)
      have e : (k : Int) + 2 = (k : Int) + 1 + 1 := by ring
      rw [this, a1, hk, e]
    have htn : L.toNat + 1 = k + 2 := by omega
    rw [htn]
    by_cases hb : heap (L + 1) = 0 ∧ 1 + (Nat.count Nat.Prime (k + 2) : Int) = N
    · obtain ⟨t, ht, t1, t2, t3, _⟩ := scanStep_break N L fuel s hL0 hL (by omega) (by omega)
        (by omega) (by rw [hcell]; exact hb.1) (by rw [i2]; exact hb.2)
      refine ⟨t, ?_, Or.inl ⟨h1, hb.1, hb.2, by omega, t3, t2⟩⟩
      unfold run
      apply scan_of_head N L fuel k fuel _ s t hs ht
      have : (k : Int) < fuel := by omega
      exact_mod_cast this
    · obtain ⟨u, hu⟩ := scanStep_progress N L fuel s hL0 hL hf (by omega) (by omega)
        (by
          intro h0 hc
          apply hb
          rw [hcell] at h0
          rw [i2] at hc
          exact ⟨h0, hc⟩)
      have hsu := (loopHead_succ N L fuel _ u k).mpr ⟨s, hs, hu⟩
      obtain ⟨b1, b2, b3, b4, b5⟩ := head_bounds N L fuel heap hL0 hL (k + 1) u hsu
      push_cast at b1
      have hdone := scanStep_exit N L fuel u (by omega) hL (by omega)
      refine ⟨u, ?_, Or.inr ⟨fun h => hb ⟨h.2.1, h.2.2⟩, by omega, b5⟩⟩
      unfold run
      apply scan_of_head N L fuel (k + 1) fuel _ u u hsu hdone
      have : (k : Int) + 1 < fuel := by omega
      exact_mod_cast this
  · have hdone := scanStep_exit N L fuel (initState L heap) (by omega) hL
      (by simp only [initState]; omega)
    refine ⟨initState L heap, ?_, Or.inr ⟨fun h => h1 h.1, ?_, rfl⟩⟩
    · unfold run
      apply scan_of_head N L fuel 0 fuel _ _ _ rfl hdone
      have : (0 : Int) < fuel := by omega
      exact_mod_cast this
    · simp only [initState]; omega

/-- With a negative limit the scan loop is left at once: the initial state is its only
loop head. -/
theorem head_negative_limit (n L : Int) (fuel : Nat) (heap : Int → Int)
    (hLmin : -2147483648 ≤ L) (hneg : L < 0) :
    ∀ (k : Nat) (s : State), loopHead n L fuel (initState L heap) k = some s →
      k = 0 ∧ s = initState L heap ∧
        scanStep n L fuel (initState L heap) = Step.done (initState L heap) := by
  have hdone := scanStep_exit n L fuel (initState L heap) hLmin (by omega)
    (by simp only [initState]; omega)
  intro k
  induction k with
  | zero =>
    intro s h
    simp only [loopHead, Option.some.injEq] at h
    exact ⟨rfl, h.symm, hdone⟩
  | succ k ih =>
    intro t h
    obtain ⟨s, hs, hst⟩ := (loopHead_succ n L fuel _ t k).mp h
    obtain ⟨_, e, _⟩ := ih s hs
    rw [e, hdone] at hst
    cases hst

theorem trialFrom_spec (n : Nat) :
    ∀ (fuel d : Nat), 2 ≤ d →
      (trialFrom n fuel d = true ↔ ∀ m, d ≤ m → m < d + fuel → m * m ≤ n → ¬ m ∣ n) := by
  intro fuel
  induction fuel with
  | zero =>
    intro d _
    simp only [trialFrom, true_iff]
    intro m h1 h2
    omega
  | succ f ih =>
    intro d hd
    unfold trialFrom
    by_cases h1 : n < d * d
    · have : Nat.blt n (d * d) = true := by rw [Nat.blt_eq]; exact h1
      rw [this]
      simp only [cond_true, true_iff]
      intro m hm _ hmn
      have : d * d ≤ m * m := Nat.mul_le_mul hm hm
      omega
    · have hb : Nat.blt n (d * d) = false := by
        rw [← Bool.not_eq_true, Nat.blt_eq]; exact h1
      rw [hb]
      simp only [cond_false]
      by_cases h2 : n % d = 0
      · have : Nat.beq (n % d) 0 = true := by rw [h2]; rfl
        rw [this]
        simp only [cond_true]
        constructor
        · intro h; cases h
        · intro h
          exact absurd (Nat.dvd_of_mod_eq_zero h2) (h d (le_refl d) (by omega) (by omega))
      · have : Nat.beq (n % d) 0 = false := by
          rw [← Bool.not_eq_true]
          intro h
          exact h2 (Nat.eq_of_beq_eq_true h)
        rw [this]
        simp only [cond_false]
        rw [ih (d + 1) (by omega)]
        constructor
        · intro h m hm1 hm2 hm3
          rcases Nat.eq_or_lt_of_le hm1 with e | e
          · subst e
            intro hdv
            exact h2 (Nat.mod_eq_zero_of_dvd hdv)
          · exact h m e (by omega) hm3
        · intro h m hm1 hm2 hm3
          exact h m (by omega) (by omega) hm3

theorem trialPrime_iff (n : Nat) : trialPrime n = true ↔ n.Prime := by
  unfold trialPrime
  rw [Bool.and_eq_true, Nat.ble_eq, Nat.prime_def_le_sqrt]
  constructor
  · rintro ⟨h2, h⟩
    refine ⟨h2, fun m hm hs => ?_⟩
    have hmm : m * m ≤ n := Nat.le_sqrt.mp hs
    have hmn : m ≤ n := le_trans (Nat.le_mul_self m) hmm
    exact (trialFrom_spec n n 2 (le_refl 2)).mp h m hm (by omega) hmm
  · rintro ⟨h2, h⟩
    refine ⟨h2, (trialFrom_spec n n 2 (le_refl 2)).mpr fun m hm _ hmm => ?_⟩
    exact h m hm (Nat.le_sqrt.mpr hmm)

theorem countIn_spec (t : Nat → Bool) (hi : Nat) :
    ∀ d lo : Nat, (∀ n, lo ≤ n → n < lo + 2 ^ d → n < hi → (t n = true ↔ n.Prime)) →
      countIn t hi d lo + Nat.count Nat.Prime (min hi lo) =
        Nat.count Nat.Prime (min hi (lo + 2 ^ d)) := by
  intro d
  induction d with
  | zero =>
    intro lo ht
    unfold countIn
    by_cases h : lo < hi
    · have h1 : min hi lo = lo := by omega
      have h2 : min hi (lo + 2 ^ 0) = lo + 1 := by simp; omega
      rw [h1, h2, Nat.count_succ]
      have hb : Nat.blt lo hi = true := by rw [Nat.blt_eq]; exact h
      rw [hb, Bool.true_and]
      have hiff := ht lo (le_refl lo) (by simp) h
      by_cases hp : lo.Prime
      · rw [hiff.mpr hp, if_pos hp]
        simp only [cond_true]
        omega
      · have : t lo = false := by
          rw [← Bool.not_eq_true]
          exact fun h => hp (hiff.mp h)
        rw [this, if_neg hp]
        simp only [cond_false]
        omega
    · have h1 : min hi lo = hi := by omega
      have h2 : min hi (lo + 2 ^ 0) = hi := by simp; omega
      have hb : Nat.blt lo hi = false := by
        rw [← Bool.not_eq_true, Nat.blt_eq]; exact h
      rw [h1, h2, hb]
      simp
  | succ d ih =>
    intro lo ht
    unfold countIn
    have e : lo + 2 ^ (d + 1) = lo + 2 ^ d + 2 ^ d := by rw [pow_succ]; omega
    by_cases h : lo < hi
    · have hb : Nat.blt lo hi = true := by rw [Nat.blt_eq]; exact h
      rw [hb]
      simp only [cond_true]
      have i1 := ih lo (fun n a b c => ht n a (by omega) c)
      have i2 := ih (lo + 2 ^ d) (fun n a b c => ht n (by omega) (by omega) c)
      rw [e, ← i2, ← i1]
      omega
    · have hb : Nat.blt lo hi = false := by
        rw [← Bool.not_eq_true, Nat.blt_eq]; exact h
      have h1 : min hi lo = hi := by omega
      have h2 : min hi (lo + 2 ^ (d + 1)) = hi :=
        Nat.min_eq_left (le_trans (not_lt.mp h) (Nat.le_add_right _ _))
      rw [hb, h1, h2]
      simp

theorem coprimeTest_iff (n : Nat) (h1 : 89 < n) (h2 : n < 9409) :
    coprimeTest n = true ↔ n.Prime := by
  have hprod : smallPrimes.prod = 23768741896345550770650537601358310 := by decide
  have hall : ∀ a ∈ smallPrimes, Nat.Prime a ∧ a ≤ 89 := by
    intro a ha
    have : trialPrime a = true ∧ a ≤ 89 := by
      revert a
      decide
    exact ⟨(trialPrime_iff a).mp this.1, this.2⟩
  have hmem : ∀ q : Nat, q < 97 → trialPrime q = true → q ∈ smallPrimes := by decide
  unfold coprimeTest
  rw [← hprod]
  constructor
  · intro h
    have hg : Nat.gcd n smallPrimes.prod = 1 := Nat.eq_of_beq_eq_true h
    by_contra hnp
    have hq : (Nat.minFac n).Prime := Nat.minFac_prime (by omega)
    have hqd : Nat.minFac n ∣ n := Nat.minFac_dvd n
    have hqq : Nat.minFac n * Nat.minFac n ≤ n := by
      have := Nat.minFac_sq_le_self (by omega : 0 < n) hnp
      rwa [sq] at this
    have hq97 : Nat.minFac n < 97 := by
      by_contra hge
      have : 97 * 97 ≤ Nat.minFac n * Nat.minFac n :=
        Nat.mul_le_mul (by omega) (by omega)
      omega
    have hin : Nat.minFac n ∈ smallPrimes :=
      hmem _ hq97 ((trialPrime_iff _).mpr hq)
    have hdp : Nat.minFac n ∣ smallPrimes.prod := List.dvd_prod hin
    have : Nat.minFac n ∣ 1 := by
      rw [← hg]
      exact Nat.dvd_gcd hqd hdp
    exact hq.one_lt.ne' (Nat.dvd_one.mp this)
  · intro hp
    have hnd : ¬ n ∣ smallPrimes.prod := by
      intro hd
      obtain ⟨a, ha, hda⟩ := (Prime.dvd_prod_iff (Nat.prime_iff.mp hp)).mp hd
      obtain ⟨hap, hle⟩ := hall a ha
      have : n = a := (Nat.prime_dvd_prime_iff_eq hp hap).mp hda
      omega
    have hc : Nat.Coprime n smallPrimes.prod := (Nat.Prime.coprime_iff_not_dvd hp).mpr hnd
    have hg : Nat.gcd n smallPrimes.prod = 1 := hc
    rw [hg]
    rfl

theorem primeCountBelow_eq (hi : Nat) (h : hi ≤ 8192) :
    Nat.count Nat.Prime hi = primeCountBelow hi := by
  have t0 := countIn_spec trialPrime hi 7 0 (fun n _ _ _ => trialPrime_iff n)
  have c7 := countIn_spec coprimeTest hi 7 128
    (fun n a b _ => coprimeTest_iff n (by omega) (by norm_num at b; omega))
  have c8 := countIn_spec coprimeTest hi 8 256
    (fun n a b _ => coprimeTest_iff n (by omega) (by norm_num at b; omega))
  have c9 := countIn_spec coprimeTest hi 9 512
    (fun n a b _ => coprimeTest_iff n (by omega) (by norm_num at b; omega))
  have c10 := countIn_spec coprimeTest hi 10 1024
    (fun n a b _ => coprimeTest_iff n (by omega) (by norm_num at b; omega))
  have c11 := countIn_spec coprimeTest hi 11 2048
    (fun n a b _ => coprimeTest_iff n (by omega) (by norm_num at b; omega))
  have c12 := countIn_spec coprimeTest hi 12 4096
    (fun n a b _ => coprimeTest_iff n (by omega) (by norm_num at b; omega))
  norm_num at t0 c7 c8 c9 c10 c11 c12
  have hmin : min hi 8192 = hi := by omega
  rw [hmin] at c12
  unfold primeCountBelow
  omega

theorem nth_prime_eq (k p : Nat) (hp : p.Prime) (hc : Nat.count Nat.Prime p = k) :
    Nat.nth Nat.Prime k = p := by
  rw [← hc]
  exact Nat.nth_count hp

theorem count_prime_eq (hi k : Nat) (h : hi ≤ 8192) (hk : primeCountBelow hi = k) :
    Nat.count Nat.Prime hi = k := by
  rw [primeCountBelow_eq hi h, hk]

theorem primesUpTo_eq (i : Nat) : primesUpTo i = Nat.count Nat.Prime (i + 1) := by
  unfold primesUpTo
  rw [Nat.count_eq_card_filter_range]
  congr 1
  ext x
  simp only [Finset.mem_filter, Finset.mem_Icc, Finset.mem_range]
  constructor
  · rintro ⟨⟨_, h2⟩, hp⟩
    exact ⟨by omega, hp⟩
  · rintro ⟨h1, hp⟩
    exact ⟨⟨hp.two_le, by omega⟩, hp⟩

theorem nth_prime_0 : Nat.nth Nat.Prime 0 = 2 :=
  nth_prime_eq 0 2 Nat.prime_two (count_prime_eq 2 0 (by decide) (by decide))

theorem nth_prime_1 : Nat.nth Nat.Prime 1 = 3 :=
  nth_prime_eq 1 3 Nat.prime_three (count_prime_eq 3 1 (by decide) (by decide))

theorem nth_prime_2 : Nat.nth Nat.Prime 2 = 5 :=
  nth_prime_eq 2 5 Nat.prime_five (count_prime_eq 5 2 (by decide) (by decide))

theorem nth_prime_3 : Nat.nth Nat.Prime 3 = 7 :=
  nth_prime_eq 3 7 (by norm_num) (count_prime_eq 7 3 (by decide) (by decide))

theorem nth_prime_4 : Nat.nth Nat.Prime 4 = 11 :=
  nth_prime_eq 4 11 (by norm_num) (count_prime_eq 11 4 (by decide) (by decide))

theorem nth_prime_5 : Nat.nth Nat.Prime 5 = 13 :=
  nth_prime_eq 5 13 (by norm_num) (count_prime_eq 13 5 (by decide) (by decide))

theorem nth_prime_9 : Nat.nth Nat.Prime 9 = 29 :=
  nth_prime_eq 9 29 (by norm_num) (count_prime_eq 29 9 (by decide) (by decide!))

theorem nth_prime_24 : Nat.nth Nat.Prime 24 = 97 :=
  nth_prime_eq 24 97 (by norm_num) (count_prime_eq 97 24 (by decide) (by decide!))

theorem nth_prime_99 : Nat.nth Nat.Prime 99 = 541 :=
  nth_prime_eq 99 541 (by norm_num) (count_prime_eq 541 99 (by decide) (by decide!))

set_option maxRecDepth 100000 in
theorem nth_prime_999 : Nat.nth Nat.Prime 999 = 7919 :=
  nth_prime_eq 999 7919 (by norm_num) (count_prime_eq 7919 999 (by decide) (by decide!))

theorem exists_small_factor (j : Nat) (hj : 2 ≤ j) (hnp : ¬ j.Prime) :
    ∃ p : Nat, p.Prime ∧ p ∣ j ∧ 2 * p ≤ j := by
  have hself := marked_self j hj
  have : Marked j (j : Int) := by
    by_contra h
    exact hnp (hself.mp h)
  obtain ⟨p, hp, _, hd, h2⟩ := this
  exact ⟨p, hp, Int.natCast_dvd_natCast.mp hd, by exact_mod_cast h2⟩

theorem marked_below (m j : Nat) (hj : 2 ≤ j) (hjm : j < m) :
    Marked m (j : Int) ↔ ¬ j.Prime := by
  constructor
  · rintro ⟨p, hp, _, hd, h2⟩ hprime
    have hd2 : p ∣ j := Int.natCast_dvd_natCast.mp hd
    have h22 : 2 * p ≤ j := by exact_mod_cast h2
    rcases hprime.eq_one_or_self_of_dvd p hd2 with h | h
    · exact hp.one_lt.ne h.symm
    · have := hp.two_le
      omega
  · intro hnp
    obtain ⟨p, hp, hd, h2⟩ := exists_small_factor j hj hnp
    exact ⟨p, hp, by omega, Int.natCast_dvd_natCast.mpr hd, by exact_mod_cast h2⟩

theorem sieve_valid_limit (N : Nat) (hN : 2 ≤ N) (L : Int) (fuel : Nat) (heap : Int → Int)
    (hL : L + 2 ≤ 1073741824) (hf : L + 2 ≤ fuel)
    (hP : (Nat.nth Nat.Prime (N - 1) : Int) ≤ L) :
    sieve_of_eratosthenes fuel L true heap N =
      some (Outcome.ret (Nat.nth Nat.Prime (N - 1) : Int)) := by
  obtain ⟨t, h1, h2, _, _⟩ := run_valid_limit N (by omega) L fuel heap hL hf hP
  unfold sieve_of_eratosthenes
  have hne : ¬ ((N : Int) = 1) := by omega
  rw [if_neg hne, if_neg (by decide), h1]
  simp [h2]

theorem sieve_short_limit (N : Nat) (hN : 2 ≤ N) (L : Int) (fuel : Nat) (heap : Int → Int)
    (hL0 : 0 ≤ L) (hL : L + 2 ≤ 1073741824) (hf : L + 2 ≤ fuel)
    (hP : L < (Nat.nth Nat.Prime (N - 1) : Int)) :
    sieve_of_eratosthenes fuel L true heap N =
      some (Outcome.ret
        (if 1 ≤ L ∧ heap (L + 1) = 0 ∧ 1 + (Nat.count Nat.Prime (L.toNat + 1) : Int) = N
          then L + 1 else L + 2)) := by
  obtain ⟨t, h1, h2⟩ := run_short_limit N L fuel heap hL0 hL hf hP
  unfold sieve_of_eratosthenes
  have hne : ¬ ((N : Int) = 1) := by omega
  rw [if_neg hne, if_neg (by decide), h1]
  rcases h2 with ⟨a, b, c, d, _⟩ | ⟨a, d, _⟩
  · rw [if_pos ⟨a, b, c⟩]
    simp [d]
  · rw [if_neg a]
    simp [d]

theorem sieve_one (fuel : Nat) (L : Int) (allocOk : Bool) (heap : Int → Int) :
    sieve_of_eratosthenes fuel L allocOk heap 1 = some (Outcome.ret 2) := by
  simp [sieve_of_eratosthenes]

/-- Enclosure of `ln y` from a rational enclosure `a ≤ y / k ≤ b` and `n` terms of the
logarithm series at `a` and at `b`, with the remainder bound `e ^ (n + 1) / (1 - e)`. -/
theorem log_enclosure (y k a b ea eb la hb : Real) (n : Nat) (hk : 0 < k) (ha : 0 < a)
    (h1 : a ≤ y / k) (h2 : y / k ≤ b)
    (hea : |1 - a| = ea) (heb : |1 - b| = eb) (hea1 : ea < 1) (heb1 : eb < 1)
    (hla : la ≤ -(∑ i ∈ Finset.range n, (1 - a) ^ (i + 1) / (i + 1)) -
      ea ^ (n + 1) / (1 - ea))
    (hhb : -(∑ i ∈ Finset.range n, (1 - b) ^ (i + 1) / (i + 1)) +
      eb ^ (n + 1) / (1 - eb) ≤ hb) :
    Real.log k + la ≤ Real.log y ∧ Real.log y ≤ Real.log k + hb := by
  have sa := abs_le.mp (Real.abs_log_sub_add_sum_range_le (by rw [hea]; exact hea1) n)
  have sb := abs_le.mp (Real.abs_log_sub_add_sum_range_le (by rw [heb]; exact heb1) n)
  rw [sub_sub_cancel, hea] at sa
  rw [sub_sub_cancel, heb] at sb
  have hyk : 0 < y / k := lt_of_lt_of_le ha h1
  have e : y = k * (y / k) := by field_simp
  have hlog : Real.log y = Real.log k + Real.log (y / k) := by
    rw [← Real.log_mul (ne_of_gt hk) (ne_of_gt hyk), ← e]
  have m1 : Real.log a ≤ Real.log (y / k) := Real.log_le_log ha h1
  have m2 : Real.log (y / k) ≤ Real.log b := Real.log_le_log hyk h2
  rw [hlog]
  constructor <;> linarith [sa.1, sb.2]

/-- Numerical enclosures of `ln 2`, `ln 3` and `ln 5`. -/
theorem log_bounds :
    ((0.6931471 : Real) ≤ Real.log 2 ∧ Real.log 2 ≤ 0.6931472) ∧
    ((1.09861 : Real) ≤ Real.log 3 ∧ Real.log 3 ≤ 1.098614) ∧
    ((1.609436 : Real) ≤ Real.log 5 ∧ Real.log 5 ≤ 1.60944) := by
  have h1 : (0.6931471 : Real) ≤ Real.log 2 :=
    le_trans (by norm_num) (le_of_lt Real.log_two_gt_d9)
  have h2 : Real.log 2 ≤ 0.6931472 :=
    le_trans (le_of_lt Real.log_two_lt_d9) (by norm_num)
  have h4 : Real.log 4 = 2 * Real.log 2 := by
    have : (4 : Real) = 2 ^ 2 := by norm_num
    rw [this, Real.log_pow]
    norm_num
  refine ⟨⟨h1, h2⟩, ?_, ?_⟩
  · obtain ⟨s1, s2⟩ := log_enclosure 3 4 0.75 0.75 0.25 0.25 (-0.2876833) (-0.2876806) 9
      (by norm_num) (by norm_num) (by norm_num) (by norm_num)
      (by rw [abs_of_pos (by norm_num)]; norm_num)
      (by rw [abs_of_pos (by norm_num)]; norm_num) (by norm_num) (by norm_num)
      (by norm_num [Finset.sum_range_succ]) (by norm_num [Finset.sum_range_succ])
    rw [h4] at s1 s2
    constructor <;> linarith
  · obtain ⟨s1, s2⟩ := log_enclosure 5 4 1.25 1.25 0.25 0.25 0.2231423 0.223145 9
      (by norm_num) (by norm_num) (by norm_num) (by norm_num)
      (by rw [abs_of_neg (by norm_num)]; norm_num)
      (by rw [abs_of_neg (by norm_num)]; norm_num) (by norm_num) (by norm_num)
      (by norm_num [Finset.sum_range_succ]) (by norm_num [Finset.sum_range_succ])
    rw [h4] at s1 s2
    constructor <;> linarith

set_option maxHeartbeats 1600000 in
/-- Enclosures of the exact value of the limit expression for
n = 2, 3, 4, 5, 6, 10, 25, 100, 1000. -/
theorem rosser_bounds :
    ((0.5 : Real) ≤ rosser 2 ∧ rosser 2 ≤ 0.8) ∧
    ((3.5 : Real) ≤ rosser 3 ∧ rosser 3 ≤ 3.6) ∧
    ((6.81 : Real) ≤ rosser 4 ∧ rosser 4 ≤ 6.92) ∧
    ((10.3 : Real) ≤ rosser 5 ∧ rosser 5 ≤ 10.5) ∧
    ((14.2 : Real) ≤ rosser 6 ∧ rosser 6 ≤ 14.3) ∧
    ((31.3 : Real) ≤ rosser 10 ∧ rosser 10 ≤ 31.5) ∧
    ((109.6 : Real) ≤ rosser 25 ∧ rosser 25 ≤ 109.8) ∧
    ((613.1 : Real) ≤ rosser 100 ∧ rosser 100 ≤ 613.4) ∧
    ((8840.2 : Real) ≤ rosser 1000 ∧ rosser 1000 ≤ 8840.6) := by
  obtain ⟨⟨h1, h2⟩, ⟨t1, t2⟩, ⟨f1, f2⟩⟩ := log_bounds
  have h4 : Real.log 4 = 2 * Real.log 2 := by
    have : (4 : Real) = 2 ^ 2 := by norm_num
    rw [this, Real.log_pow]
    norm_num
  have h8 : Real.log 8 = 3 * Real.log 2 := by
    have : (8 : Real) = 2 ^ 3 := by norm_num
    rw [this, Real.log_pow]
    norm_num
  unfold rosser
  simp only [Nat.cast_ofNat]
  refine ⟨?_, ?_, ?_, ?_, ?_, ?_, ?_, ?_, ?_⟩
  · obtain ⟨s1, s2⟩ := log_enclosure (Real.log 2) 1 0.693 0.694 0.307
      0.306 (-0.3959) (-0.3115) 2 (by norm_num) (by norm_num)
      (by linarith) (by linarith)
      (by rw [abs_of_pos (by norm_num)]; norm_num)
      (by rw [abs_of_pos (by norm_num)]; norm_num) (by norm_num) (by norm_num)
      (by norm_num [Finset.sum_range_succ]) (by norm_num [Finset.sum_range_succ])
    rw [Real.log_one] at s1 s2
    constructor <;> linarith
  · obtain ⟨s1, s2⟩ := log_enclosure (Real.log 3) 1 1.098 1.099 0.098
      0.099 0.0921 0.0952 2 (by norm_num) (by norm_num)
      (by linarith) (by linarith)
      (by rw [abs_of_neg (by norm_num)]; norm_num)
      (by rw [abs_of_neg (by norm_num)]; norm_num) (by norm_num) (by norm_num)
      (by norm_num [Finset.sum_range_succ]) (by norm_num [Finset.sum_range_succ])
    rw [Real.log_one] at s1 s2
    constructor <;> linarith
  · have e : Real.log 4 = 2 * Real.log 2 := by
      have : (4 : Real) = 2 ^ 2 := by norm_num
      rw [this, Real.log_pow]
      norm_num
    obtain ⟨s1, s2⟩ := log_enclosure (Real.log 4) 2 0.693 0.694 0.307
      0.306 (-0.3766) (-0.3497) 3 (by norm_num) (by norm_num)
      (by rw [e]; linarith) (by rw [e]; linarith)
      (by rw [abs_of_pos (by norm_num)]; norm_num)
      (by rw [abs_of_pos (by norm_num)]; norm_num) (by norm_num) (by norm_num)
      (by norm_num [Finset.sum_range_succ]) (by norm_num [Finset.sum_range_succ])
    rw [e] at s1 s2 ⊢
    constructor <;> linarith
  · obtain ⟨s1, s2⟩ := log_enclosure (Real.log 5) 2 0.804 0.805 0.196
      0.195 (-0.2246) (-0.2048) 2 (by norm_num) (by norm_num)
      (by linarith) (by linarith)
      (by rw [abs_of_pos (by norm_num)]; norm_num)
      (by rw [abs_of_pos (by norm_num)]; norm_num) (by norm_num) (by norm_num)
      (by norm_num [Finset.sum_range_succ]) (by norm_num [Finset.sum_range_succ])
    constructor <;> linarith
  · have e : Real.log 6 = Real.log 2 + Real.log 3 := by
      have : (6 : Real) = 2 * 3 := by norm_num
      rw [this, Real.log_mul (by norm_num) (by norm_num)]
    obtain ⟨s1, s2⟩ := log_enclosure (Real.log 6) 2 0.895 0.896 0.105
      0.104 (-0.1119) (-0.1081) 2 (by norm_num) (by norm_num)
      (by rw [e]; linarith) (by rw [e]; linarith)
      (by rw [abs_of_pos (by norm_num)]; norm_num)
      (by rw [abs_of_pos (by norm_num)]; norm_num) (by norm_num) (by norm_num)
      (by norm_num [Finset.sum_range_succ]) (by norm_num [Finset.sum_range_succ])
    rw [e] at s1 s2 ⊢
    constructor <;> linarith
  · have e : Real.log 10 = Real.log 2 + Real.log 5 := by
      have : (10 : Real) = 2 * 5 := by norm_num
      rw [this, Real.log_mul (by norm_num) (by norm_num)]
    obtain ⟨s1, s2⟩ := log_enclosure (Real.log 10) 2 1.151 1.152 0.151
      0.152 0.1355 0.1446 2 (by norm_num) (by norm_num)
      (by rw [e]; linarith) (by rw [e]; linarith)
      (by rw [abs_of_neg (by norm_num)]; norm_num)
      (by rw [abs_of_neg (by norm_num)]; norm_num) (by norm_num) (by norm_num)
      (by norm_num [Finset.sum_range_succ]) (by norm_num [Finset.sum_range_succ])
    rw [e] at s1 s2 ⊢
    constructor <;> linarith
  · have e : Real.log 25 = 2 * Real.log 5 := by
      have : (25 : Real) = 5 ^ 2 := by norm_num
      rw [this, Real.log_pow]
      norm_num
    obtain ⟨s1, s2⟩ := log_enclosure (Real.log 25) 4 0.804 0.805 0.196
      0.195 (-0.2196) (-0.2146) 3 (by norm_num) (by norm_num)
      (by rw [e]; linarith) (by rw [e]; linarith)
      (by rw [abs_of_pos (by norm_num)]; norm_num)
      (by rw [abs_of_pos (by norm_num)]; norm_num) (by norm_num) (by norm_num)
      (by norm_num [Finset.sum_range_succ]) (by norm_num [Finset.sum_range_succ])
    rw [h4] at s1 s2
    rw [e] at s1 s2 ⊢
    constructor <;> linarith
  · have e : Real.log 100 = 2 * (Real.log 2 + Real.log 5) := by
      have : (100 : Real) = (2 * 5) ^ 2 := by norm_num
      rw [this, Real.log_pow, Real.log_mul (by norm_num) (by norm_num)]
      norm_num
    obtain ⟨s1, s2⟩ := log_enclosure (Real.log 100) 4 1.151 1.152 0.151
      0.152 0.1401 0.1423 3 (by norm_num) (by norm_num)
      (by rw [e]; linarith) (by rw [e]; linarith)
      (by rw [abs_of_neg (by norm_num)]; norm_num)
      (by rw [abs_of_neg (by norm_num)]; norm_num) (by norm_num) (by norm_num)
      (by norm_num [Finset.sum_range_succ]) (by norm_num [Finset.sum_range_succ])
    rw [h4] at s1 s2
    rw [e] at s1 s2 ⊢
    constructor <;> linarith
  · have e : Real.log 1000 = 3 * (Real.log 2 + Real.log 5) := by
      have : (1000 : Real) = (2 * 5) ^ 3 := by norm_num
      rw [this, Real.log_pow, Real.log_mul (by norm_num) (by norm_num)]
      norm_num
    obtain ⟨s1, s2⟩ := log_enclosure (Real.log 1000) 8 0.8634 0.8635 0.1366
      0.1365 (-0.14693) (-0.14669) 4 (by norm_num) (by norm_num)
      (by rw [e]; linarith) (by rw [e]; linarith)
      (by rw [abs_of_pos (by norm_num)]; norm_num)
      (by rw [abs_of_pos (by norm_num)]; norm_num) (by norm_num) (by norm_num)
      (by norm_num [Finset.sum_range_succ]) (by norm_num [Finset.sum_range_succ])
    rw [h8] at s1 s2
    rw [e] at s1 s2 ⊢
    constructor <;> linarith

theorem limit_of_bounds (n : Nat) (v : Int) (lo hi : Real) (hlo : lo ≤ rosser n)
    (hhi : rosser n ≤ hi) (h1 : (v : Real) - 1 < lo - 1 / 16) (h2 : hi + 1 / 16 ≤ v)
    (L : Int) (hL : IsLimit n L) : L = v := by
  obtain ⟨x, hx, rfl⟩ := hL
  obtain ⟨a, b⟩ := abs_le.mp hx
  rw [Int.ceil_eq_iff]
  constructor <;> linarith

/-- The limits the kernel computes for n = 2, 3, 4, 5, 6, 10, 25, 100, 1000 are
1, 4, 7, 11, 15, 32, 110, 614, 8841. -/
theorem computed_limits (L : Int) :
    (IsLimit 2 L → L = 1) ∧
    (IsLimit 3 L → L = 4) ∧
    (IsLimit 4 L → L = 7) ∧
    (IsLimit 5 L → L = 11) ∧
    (IsLimit 6 L → L = 15) ∧
    (IsLimit 10 L → L = 32) ∧
    (IsLimit 25 L → L = 110) ∧
    (IsLimit 100 L → L = 614) ∧
    (IsLimit 1000 L → L = 8841) := by
  obtain ⟨b2, b3, b4, b5, b6, b10, b25, b100, b1000⟩ := rosser_bounds
  exact ⟨limit_of_bounds 2 1 0.5 0.8 b2.1 b2.2 (by norm_num) (by norm_num) L,
    limit_of_bounds 3 4 3.5 3.6 b3.1 b3.2 (by norm_num) (by norm_num) L,
    limit_of_bounds 4 7 6.81 6.92 b4.1 b4.2 (by norm_num) (by norm_num) L,
    limit_of_bounds 5 11 10.3 10.5 b5.1 b5.2 (by norm_num) (by norm_num) L,
    limit_of_bounds 6 15 14.2 14.3 b6.1 b6.2 (by norm_num) (by norm_num) L,
    limit_of_bounds 10 32 31.3 31.5 b10.1 b10.2 (by norm_num) (by norm_num) L,
    limit_of_bounds 25 110 109.6 109.8 b25.1 b25.2 (by norm_num) (by norm_num) L,
    limit_of_bounds 100 614 613.1 613.4 b100.1 b100.2 (by norm_num) (by norm_num) L,
    limit_of_bounds 1000 8841 8840.2 8840.6 b1000.1 b1000.2 (by norm_num) (by norm_num) L⟩

theorem isLimit_values :
    IsLimit 2 1 ∧
    IsLimit 3 4 ∧
    IsLimit 4 7 ∧
    IsLimit 5 11 ∧
    IsLimit 6 15 ∧
    IsLimit 10 32 ∧
    IsLimit 25 110 ∧
    IsLimit 100 614 ∧
    IsLimit 1000 8841 := by
  have key : ∀ n : Nat, IsLimit n ⌈rosser n⌉ := fun n => ⟨rosser n, by simp, rfl⟩
  have h2 := key 2
  have h3 := key 3
  have h4 := key 4
  have h5 := key 5
  have h6 := key 6
  have h10 := key 10
  have h25 := key 25
  have h100 := key 100
  have h1000 := key 1000
  rw [(computed_limits _).1 h2] at h2
  rw [(computed_limits _).2.1 h3] at h3
  rw [(computed_limits _).2.2.1 h4] at h4
  rw [(computed_limits _).2.2.2.1 h5] at h5
  rw [(computed_limits _).2.2.2.2.1 h6] at h6
  rw [(computed_limits _).2.2.2.2.2.1 h10] at h10
  rw [(computed_limits _).2.2.2.2.2.2.1 h25] at h25
  rw [(computed_limits _).2.2.2.2.2.2.2.1 h100] at h100
  rw [(computed_limits _).2.2.2.2.2.2.2.2 h1000] at h1000
  exact ⟨h2, h3, h4, h5, h6, h10, h25, h100, h1000⟩

/-- Below the overflow of the index arithmetic the kernel returns the `n`-th prime: `n = 1`
returns 2, and for `n ≥ 2` with a limit `L` that covers `p_n` and has `L + 2 ≤ 2^30` the scan
leaves through the `break` at an index `r ≤ L` that is prime, is `p_n`, and has exactly `n`
primes in `[2, r]`. -/
theorem sieve_returns_nth_prime (n : Nat) (L : Int) (heap : Int → Int) (fuel : Nat)
    (h : n = 1 ∨ (2 ≤ n ∧ (Nat.nth Nat.Prime (n - 1) : Int) ≤ L ∧
          L + 2 ≤ 1073741824 ∧ L + 2 ≤ fuel)) :
    ∃ r : Nat, sieve_of_eratosthenes fuel L true heap n = some (Outcome.ret r) ∧
      r = Nat.nth Nat.Prime (n - 1) ∧ r.Prime ∧ primesUpTo r = n ∧
      (n = 1 → r = 2) ∧
      (2 ≤ n → ∃ t, run fuel L heap n = some t ∧ t.broke = true ∧ t.i = r ∧ (r : Int) ≤ L) := by
  have hprime : (Nat.nth Nat.Prime (n - 1)).Prime := Nat.prime_nth_prime _
  have hcount : primesUpTo (Nat.nth Nat.Prime (n - 1)) = n - 1 + 1 := by
    rw [primesUpTo_eq, Nat.count_succ, count_nth_prime, if_pos hprime]
  rcases h with h1 | ⟨h2, hP, hL, hf⟩
  · subst h1
    refine ⟨2, ?_, ?_, Nat.prime_two, ?_, fun _ => rfl, fun h => absurd h (by decide)⟩
    · exact sieve_one fuel L true heap
    · exact nth_prime_0.symm
    · have := hcount
      rw [show (1 : Nat) - 1 = 0 from rfl, nth_prime_0] at this
      exact this
  · refine ⟨Nat.nth Nat.Prime (n - 1), ?_, rfl, hprime, ?_, ?_, ?_⟩
    · exact sieve_valid_limit n h2 L fuel heap hL hf hP
    · rw [hcount]; omega
    · intro h1
      omega
    · intro _
      obtain ⟨t, t1, t2, t3, _⟩ := run_valid_limit n (by omega) L fuel heap hL hf hP
      exact ⟨t, t1, t3, t2, hP⟩

/-- C3: on the documented end-to-end inputs `n = 1, 6, 10, 25, 100, 1000` the limits the
code computes are 15, 32, 110, 614, 8841 (for n ≥ 6) and the kernel returns
2, 13, 29, 97, 541, 7919, whatever the memory around the bitmap holds. -/
theorem reference_table (heap : Int → Int) (fuel : Nat) (L1 L6 L10 L25 L100 L1000 : Int)
    (hf : 8843 ≤ fuel) (h6 : IsLimit 6 L6) (h10 : IsLimit 10 L10) (h25 : IsLimit 25 L25)
    (h100 : IsLimit 100 L100) (h1000 : IsLimit 1000 L1000) :
    (L6 = 15 ∧ L10 = 32 ∧ L25 = 110 ∧ L100 = 614 ∧ L1000 = 8841) ∧
    sieve_of_eratosthenes fuel L1 true heap 1 = some (Outcome.ret 2) ∧
    sieve_of_eratosthenes fuel L6 true heap 6 = some (Outcome.ret 13) ∧
    sieve_of_eratosthenes fuel L10 true heap 10 = some (Outcome.ret 29) ∧
    sieve_of_eratosthenes fuel L25 true heap 25 = some (Outcome.ret 97) ∧
    sieve_of_eratosthenes fuel L100 true heap 100 = some (Outcome.ret 541) ∧
    sieve_of_eratosthenes fuel L1000 true heap 1000 = some (Outcome.ret 7919) := by
  have hfz : (8843 : Int) ≤ fuel := by exact_mod_cast hf
  have e6 := (computed_limits L6).2.2.2.2.1 h6
  have e10 := (computed_limits L10).2.2.2.2.2.1 h10
  have e25 := (computed_limits L25).2.2.2.2.2.2.1 h25
  have e100 := (computed_limits L100).2.2.2.2.2.2.2.1 h100
  have e1000 := (computed_limits L1000).2.2.2.2.2.2.2.2 h1000
  subst e6 e10 e25 e100 e1000
  refine ⟨⟨rfl, rfl, rfl, rfl, rfl⟩, sieve_one fuel L1 true heap, ?_, ?_, ?_, ?_, ?_⟩
  · have := sieve_valid_limit 6 (by decide) 15 fuel heap (by decide) (by omega)
      (by rw [show (6 : Nat) - 1 = 5 from rfl, nth_prime_5]; decide)
    rw [show (6 : Nat) - 1 = 5 from rfl, nth_prime_5] at this
    exact this
  · have := sieve_valid_limit 10 (by decide) 32 fuel heap (by decide) (by omega)
      (by rw [show (10 : Nat) - 1 = 9 from rfl, nth_prime_9]; decide)
    rw [show (10 : Nat) - 1 = 9 from rfl, nth_prime_9] at this
    exact this
  · have := sieve_valid_limit 25 (by decide) 110 fuel heap (by decide) (by omega)
      (by rw [show (25 : Nat) - 1 = 24 from rfl, nth_prime_24]; decide)
    rw [show (25 : Nat) - 1 = 24 from rfl, nth_prime_24] at this
    exact this
  · have := sieve_valid_limit 100 (by decide) 614 fuel heap (by decide) (by omega)
      (by rw [show (100 : Nat) - 1 = 99 from rfl, nth_prime_99]; decide)
    rw [show (100 : Nat) - 1 = 99 from rfl, nth_prime_99] at this
    exact this
  · have := sieve_valid_limit 1000 (by decide) 8841 fuel heap (by decide) (by omega)
      (by rw [show (1000 : Nat) - 1 = 999 from rfl, nth_prime_999]; decide)
    rw [show (1000 : Nat) - 1 = 999 from rfl, nth_prime_999] at this
    exact this

theorem reference_table_witness :
    (8843 ≤ 8843 ∧ IsLimit 6 15 ∧ IsLimit 10 32 ∧ IsLimit 25 110 ∧ IsLimit 100 614 ∧
      IsLimit 1000 8841) ∧
    (sieve_of_eratosthenes 8843 0 true (fun _ => 0) 1 = some (Outcome.ret 2) ∧
    sieve_of_eratosthenes 8843 15 true (fun _ => 0) 6 = some (Outcome.ret 13) ∧
    sieve_of_eratosthenes 8843 32 true (fun _ => 0) 10 = some (Outcome.ret 29) ∧
    sieve_of_eratosthenes 8843 110 true (fun _ => 0) 25 = some (Outcome.ret 97) ∧
    sieve_of_eratosthenes 8843 614 true (fun _ => 0) 100 = some (Outcome.ret 541) ∧
    sieve_of_eratosthenes 8843 8841 true (fun _ => 0) 1000 = some (Outcome.ret 7919)) :=
  ⟨⟨le_refl _, isLimit_values.2.2.2.2⟩,
    (reference_table (fun _ => 0) 8843 0 15 32 110 614 8841 (le_refl _)
      isLimit_values.2.2.2.2.1 isLimit_values.2.2.2.2.2.1 isLimit_values.2.2.2.2.2.2.1
      isLimit_values.2.2.2.2.2.2.2.1 isLimit_values.2.2.2.2.2.2.2.2).2⟩

theorem count_prime_five : Nat.count Nat.Prime 5 = 2 := by
  exact count_prime_eq 5 2 (by decide) (by decide)

theorem sieve_two (heap : Int → Int) (fuel : Nat) (hf : (3 : Int) ≤ fuel) :
    sieve_of_eratosthenes fuel 1 true heap 2 = some (Outcome.ret 3) := by
  have := sieve_short_limit 2 (by decide) 1 fuel heap (by decide) (by decide) (by omega)
    (by rw [show (2 : Nat) - 1 = 1 from rfl, nth_prime_1]; decide)
  rw [show sieve_of_eratosthenes fuel 1 true heap 2 = _ from this]
  have hc : ¬ ((1 : Int) ≤ 1 ∧ heap (1 + 1) = 0 ∧
      1 + (Nat.count Nat.Prime ((1 : Int).toNat + 1) : Int) = ((2 : Nat) : Int)) := by
    rintro ⟨_, _, h⟩
    rw [show (1 : Int).toNat + 1 = 2 from rfl, count_prime_two] at h
    exact absurd h (by decide)
  rw [if_neg hc]
  rfl

theorem sieve_three (heap : Int → Int) (fuel : Nat) (hf : (6 : Int) ≤ fuel) :
    sieve_of_eratosthenes fuel 4 true heap 3 =
      some (Outcome.ret (if heap 5 = 0 then 5 else 6)) := by
  have := sieve_short_limit 3 (by decide) 4 fuel heap (by decide) (by decide) (by omega)
    (by rw [show (3 : Nat) - 1 = 2 from rfl, nth_prime_2]; decide)
  rw [show sieve_of_eratosthenes fuel 4 true heap 3 = _ from this]
  have hc : ((1 : Int) ≤ 4 ∧ heap (4 + 1) = 0 ∧
      1 + (Nat.count Nat.Prime ((4 : Int).toNat + 1) : Int) = ((3 : Nat) : Int)) ↔
      heap 5 = 0 := by
    rw [show (4 : Int).toNat + 1 = 5 from rfl, count_prime_five]
    constructor
    · rintro ⟨_, h, _⟩; exact h
    · intro h; exact ⟨by decide, h, by decide⟩
  by_cases h5 : heap 5 = 0
  · rw [if_pos (hc.mpr h5), if_pos h5]; rfl
  · rw [if_neg (fun h => h5 (hc.mp h)), if_neg h5]; rfl

/-- C2: small-n results, each run with the limit the code computes itself, which is
1, 4, 7, 11 for n = 2, 3, 4, 5: n = 1, 2, 4, 5 return 2, 3, 7, 11; n = 3 scans a 5-cell
bitmap up to cell 5, one past its end, and returns 5 only when that foreign byte is zero,
6 otherwise. -/
theorem small_n_results (heap : Int → Int) (fuel : Nat) (L1 L2 L3 L4 L5 : Int)
    (hf : 13 ≤ fuel) (h2 : IsLimit 2 L2) (h3 : IsLimit 3 L3) (h4 : IsLimit 4 L4)
    (h5 : IsLimit 5 L5) :
    (L2 = 1 ∧ L3 = 4 ∧ L4 = 7 ∧ L5 = 11) ∧
    sieve_of_eratosthenes fuel L1 true heap 1 = some (Outcome.ret 2) ∧
    sieve_of_eratosthenes fuel L2 true heap 2 = some (Outcome.ret 3) ∧
    sieve_of_eratosthenes fuel L3 true heap 3 =
      some (Outcome.ret (if heap 5 = 0 then 5 else 6)) ∧
    sieve_of_eratosthenes fuel L4 true heap 4 = some (Outcome.ret 7) ∧
    sieve_of_eratosthenes fuel L5 true heap 5 = some (Outcome.ret 11) := by
  have hfz : (13 : Int) ≤ fuel := by exact_mod_cast hf
  have e2 := (computed_limits L2).1 h2
  have e3 := (computed_limits L3).2.1 h3
  have e4 := (computed_limits L4).2.2.1 h4
  have e5 := (computed_limits L5).2.2.2.1 h5
  subst e2 e3 e4 e5
  refine ⟨⟨rfl, rfl, rfl, rfl⟩, sieve_one fuel L1 true heap, sieve_two heap fuel (by omega),
    sieve_three heap fuel (by omega), ?_, ?_⟩
  · have := sieve_valid_limit 4 (by decide) 7 fuel heap (by decide) (by omega)
      (by rw [show (4 : Nat) - 1 = 3 from rfl, nth_prime_3]; decide)
    rw [show (4 : Nat) - 1 = 3 from rfl, nth_prime_3] at this
    exact this
  · have := sieve_valid_limit 5 (by decide) 11 fuel heap (by decide) (by omega)
      (by rw [show (5 : Nat) - 1 = 4 from rfl, nth_prime_4]; decide)
    rw [show (5 : Nat) - 1 = 4 from rfl, nth_prime_4] at this
    exact this

theorem small_n_results_witness :
    (13 ≤ 13 ∧ IsLimit 2 1 ∧ IsLimit 3 4 ∧ IsLimit 4 7 ∧ IsLimit 5 11) ∧
    sieve_of_eratosthenes 13 4 true (fun _ => 1) 3 = some (Outcome.ret 6) :=
  ⟨⟨le_refl _, isLimit_values.1, isLimit_values.2.1, isLimit_values.2.2.1,
      isLimit_values.2.2.2.1⟩,
    (small_n_results (fun _ => 1) 13 0 1 4 7 11 (le_refl _) isLimit_values.1
      isLimit_values.2.1 isLimit_values.2.2.1 isLimit_values.2.2.2.1).2.2.2.1⟩

/-- C7: with n = 2 and its limit 1 the bitmap has the two cells 0 and 1; the only
array access of the run is a read of cell 2, outside the allocation, and the kernel
then returns 3. -/
theorem scan_reads_past_bitmap (heap : Int → Int) :
    (run 3 1 heap 2).map (fun t => (t.i, t.trace)) = some (3, [Access.rd 2]) := by
  by_cases h : heap 2 = 0
  · simp [run, scan, scanStep, initState, wrap32, mark, h]
  · simp [run, scan, scanStep, initState, wrap32, mark, h]

/-- C5: the limit the kernel computes is not a bound for the n-th prime when n is 2 or 3:
it is 1 for n = 2 (while p_2 = 3) and 4 for n = 3 (while p_3 = 5). -/
theorem computed_limit_below_prime :
    (IsLimit 2 1 ∧ ∀ L : Int, IsLimit 2 L → L = 1 ∧ L < (Nat.nth Nat.Prime (2 - 1) : Int)) ∧
    (IsLimit 3 4 ∧ ∀ L : Int, IsLimit 3 L → L = 4 ∧ L < (Nat.nth Nat.Prime (3 - 1) : Int)) := by
  refine ⟨⟨isLimit_values.1, fun L h => ?_⟩, ⟨isLimit_values.2.1, fun L h => ?_⟩⟩
  · have := (computed_limits L).1 h
    subst this
    rw [show (2 : Nat) - 1 = 1 from rfl, nth_prime_1]
    exact ⟨rfl, by decide⟩
  · have := (computed_limits L).2.1 h
    subst this
    rw [show (3 : Nat) - 1 = 2 from rfl, nth_prime_2]
    exact ⟨rfl, by decide⟩

theorem head_cells (n L : Int) (fuel : Nat) (heap : Int → Int)
    (hL0 : 0 ≤ L) (hL : L + 2 ≤ 1073741824) (k : Nat) (s : State)
    (hs : loopHead n L fuel (initState L heap) k = some s) (hiL : s.i ≤ L) :
    (∀ j : Nat, 2 ≤ j → (j : Int) < s.i → (s.mem j ≠ 0 ↔ ¬ j.Prime)) ∧
    (s.mem s.i = 0 ↔ (k + 2).Prime) := by
  obtain ⟨a1, a2, a3, a4, a5⟩ := head_bounds n L fuel heap hL0 hL k s hs
  obtain ⟨i1, i2, i3⟩ := head_inv n L fuel heap hL0 hL k s hs (by omega)
  constructor
  · intro j hj2 hji
    have hjk : j < k + 2 := by
      have : (j : Int) < (k : Int) + 2 := by omega
      exact_mod_cast this
    have hm := marked_below (k + 2) j hj2 hjk
    rcases (i1 j).1 (by omega) with ⟨m, e⟩ | ⟨m, e⟩
    · rw [e]
      exact ⟨fun _ => hm.mp m, fun _ => by decide⟩
    · rw [e]
      exact ⟨fun h => absurd rfl h, fun h => absurd (hm.mpr h) m⟩
  · have hself := marked_self (k + 2) (by omega)
    push_cast at hself
    rw [a1]
    rcases (i1 ((k : Int) + 2)).1 (by omega) with ⟨m, e⟩ | ⟨m, e⟩
    · rw [e]
      exact ⟨fun h => absurd h (by decide), fun h => absurd m (hself.mpr h)⟩
    · rw [e]
      exact ⟨fun _ => hself.mp m, fun _ => rfl⟩

/-- Sieve invariant below the overflow of the index arithmetic (`L + 2 ≤ 2^30`). Whenever the
scan stands at an index `i` with `2 ≤ i ≤ L`, every cell `j` in `[2, i)` is set exactly when
`j` is composite and cell `i` is clear exactly when `i` is prime; so a run that leaves
through the `break` at `i ≤ L` returns a prime, which has no divisor `d ≥ 2` with
`d * d ≤ i`. No assumption relates `L` to `n`. -/
theorem sieve_invariant (n L : Int) (heap : Int → Int) (fuel : Nat)
    (hLmin : -2147483648 ≤ L) (hL : L + 2 ≤ 1073741824) :
    (∀ (k : Nat) (s : State), loopHead n L fuel (initState L heap) k = some s →
      2 ≤ s.i → s.i ≤ L →
        (∀ j : Nat, 2 ≤ j → (j : Int) < s.i → (s.mem j ≠ 0 ↔ ¬ j.Prime)) ∧
        (s.mem s.i = 0 ↔ s.i.toNat.Prime)) ∧
    (∀ t : State, run fuel L heap n = some t → t.broke = true → t.i ≤ L →
      t.i.toNat.Prime ∧ ∀ d : Nat, 2 ≤ d → d * d ≤ t.i.toNat → ¬ d ∣ t.i.toNat) := by
  rcases Int.lt_or_le L 0 with hneg | hL0
  · constructor
    · intro k s hs h2 hiL
      omega
    · intro t ht hb _
      obtain ⟨k, s, hs, hd⟩ := head_of_scan n L fuel fuel _ t ht
      obtain ⟨_, e, hdone⟩ := head_negative_limit n L fuel heap hLmin hneg k s hs
      rw [e, hdone] at hd
      injection hd with hd
      rw [← hd] at hb
      cases hb
  constructor
  · intro k s hs _ hiL
    obtain ⟨a1, _⟩ := head_bounds n L fuel heap hL0 hL k s hs
    obtain ⟨c1, c2⟩ := head_cells n L fuel heap hL0 hL k s hs hiL
    have : s.i.toNat = k + 2 := by omega
    rw [this]
    exact ⟨c1, c2⟩
  · intro t ht hb hiL
    obtain ⟨k, s, hs, hd⟩ := head_of_scan n L fuel fuel _ t ht
    obtain ⟨a1, a2, a3, a4, a5⟩ := head_bounds n L fuel heap hL0 hL k s hs
    rcases scanStep_done n L fuel s t hL0 hL (by omega) (by omega) hd with
      ⟨_, e⟩ | ⟨_, h0, _, ti, _, _, _⟩
    · rw [e, a5] at hb
      cases hb
    · obtain ⟨_, c2⟩ := head_cells n L fuel heap hL0 hL k s hs (by omega)
      have hp : (k + 2).Prime := c2.mp h0
      have : t.i.toNat = k + 2 := by omega
      rw [this]
      refine ⟨hp, fun d hd2 hdd hdv => ?_⟩
      rcases hp.eq_one_or_self_of_dvd d hdv with h | h
      · omega
      · rw [h] at hdd
        have : 2 * (k + 2) ≤ (k + 2) * (k + 2) := Nat.mul_le_mul_right (k + 2) (by omega)
        omega

/-- C10 (as the code has it), for every int limit `L` with `L + 2 ≤ 2^30`, where no index
computation overflows: `count` starts at 1, not 0; no pass of the scan lowers it;
once an index `i ≤ L` has been classified it equals one plus the number of primes in
`[2, i]`; and when the kernel leaves through the `break` the tested value was `n`, so
`count` is `n + 1` after the post-increment and `n` primes lie in `[2, i]`. -/
theorem count_invariant (n L : Int) (heap : Int → Int) (fuel : Nat)
    (hLmin : -2147483648 ≤ L) (hL : L + 2 ≤ 1073741824) :
    (initState L heap).count = 1 ∧
    (∀ (k : Nat) (s u : State), loopHead n L fuel (initState L heap) k = some s →
      (scanStep n L fuel s = Step.next u ∨ scanStep n L fuel s = Step.done u) →
        s.count ≤ u.count) ∧
    (∀ (k : Nat) (s u : State), loopHead n L fuel (initState L heap) k = some s →
      scanStep n L fuel s = Step.next u → s.i ≤ L →
        u.count = 1 + (primesUpTo s.i.toNat : Int)) ∧
    (∀ t : State, run fuel L heap n = some t → t.broke = true →
      t.count = n + 1 ∧ (t.i ≤ L → (primesUpTo t.i.toNat : Int) = n)) := by
  rcases Int.lt_or_le L 0 with hneg | hL0
  · refine ⟨rfl, ?_, ?_, ?_⟩
    · intro k s u hs hu
      obtain ⟨_, e, hdone⟩ := head_negative_limit n L fuel heap hLmin hneg k s hs
      rw [e, hdone] at hu
      rcases hu with hu | hu
      · cases hu
      · injection hu with hu
        rw [e, hu]
    · intro k s u hs hu _
      obtain ⟨_, e, hdone⟩ := head_negative_limit n L fuel heap hLmin hneg k s hs
      rw [e, hdone] at hu
      cases hu
    · intro t ht hb
      obtain ⟨k, s, hs, hd⟩ := head_of_scan n L fuel fuel _ t ht
      obtain ⟨_, e, hdone⟩ := head_negative_limit n L fuel heap hLmin hneg k s hs
      rw [e, hdone] at hd
      injection hd with hd
      rw [← hd] at hb
      cases hb
  refine ⟨rfl, ?_, ?_, ?_⟩
  · intro k s u hs hu
    obtain ⟨a1, a2, a3, a4, a5⟩ := head_bounds n L fuel heap hL0 hL k s hs
    rcases hu with hu | hu
    · obtain ⟨_, _, _, b4⟩ := scanStep_next n L fuel s u hL0 hL (by omega) (by omega)
        (by omega) hu
      rcases b4 with ⟨_, _, c⟩ | ⟨_, _, c, _⟩ <;> omega
    · rcases scanStep_done n L fuel s u hL0 hL (by omega) (by omega) hu with
        ⟨_, e⟩ | ⟨_, _, _, _, c, _, _⟩
      · rw [e]
      · omega
  · intro k s u hs hu hiL
    obtain ⟨a1, a2, a3, a4, a5⟩ := head_bounds n L fuel heap hL0 hL k s hs
    have hsu := (loopHead_succ n L fuel _ u k).mpr ⟨s, hs, hu⟩
    obtain ⟨_, i2, _⟩ := head_inv n L fuel heap hL0 hL (k + 1) u hsu (by push_cast; omega)
    have : s.i.toNat = k + 2 := by omega
    rw [this, primesUpTo_eq, i2]
  · intro t ht hb
    obtain ⟨k, s, hs, hd⟩ := head_of_scan n L fuel fuel _ t ht
    obtain ⟨a1, a2, a3, a4, a5⟩ := head_bounds n L fuel heap hL0 hL k s hs
    rcases scanStep_done n L fuel s t hL0 hL (by omega) (by omega) hd with
      ⟨_, e⟩ | ⟨_, h0, hc, ti, tc, _, _⟩
    · rw [e, a5] at hb
      cases hb
    · refine ⟨by rw [tc, hc], fun hiL => ?_⟩
      obtain ⟨_, c2⟩ := head_cells n L fuel heap hL0 hL k s hs (by omega)
      obtain ⟨_, i2, _⟩ := head_inv n L fuel heap hL0 hL k s hs (by omega)
      have hp : (k + 2).Prime := c2.mp h0
      have : t.i.toNat = k + 2 := by omega
      rw [this, primesUpTo_eq, Nat.count_succ, if_pos hp, ← hc, i2]
      push_cast
      ring

theorem count_invariant_witness :
    ((-2147483648 : Int) ≤ 11 ∧ (11 : Int) + 2 ≤ 1073741824) ∧
    ((initState 11 (fun _ => 0)).count = 1 ∧
    (∀ (k : Nat) (s u : State), loopHead 5 11 13 (initState 11 (fun _ => 0)) k = some s →
      (scanStep 5 11 13 s = Step.next u ∨ scanStep 5 11 13 s = Step.done u) →
        s.count ≤ u.count) ∧
    (∀ (k : Nat) (s u : State), loopHead 5 11 13 (initState 11 (fun _ => 0)) k = some s →
      scanStep 5 11 13 s = Step.next u → s.i ≤ 11 →
        u.count = 1 + (primesUpTo s.i.toNat : Int)) ∧
    (∀ t : State, run 13 11 (fun _ => 0) 5 = some t → t.broke = true →
      t.count = 5 + 1 ∧ (t.i ≤ 11 → (primesUpTo t.i.toNat : Int) = 5))) :=
  ⟨⟨by decide, by decide⟩, count_invariant 5 11 (fun _ => 0) 13 (by decide) (by decide)⟩

/-- C10 fails as stated: the count variable starts at 1, and the run for n = 3 (limit 4,
zeroed memory) leaves through the `break` at index 5 with `count = 4`, not 3. -/
theorem count_starts_at_one :
    (initState 4 (fun _ => 0)).count ≠ 0 ∧
    (run 6 4 (fun _ => 0) 3).map (fun t => (t.broke, t.i, t.count)) = some (true, 5, 4) := by
  decide

/-- C8 (as the code has it): `main` succeeds exactly when it is given one argument whose
`atoi` value is at least 1 and the kernel returns; it then prints the result line for that
value. A wrong argument count or an `atoi` value below 1 (as for "0", "-3", "abc") gives
status 1, a diagnostic and no call of the kernel; every kernel call has `n ≥ 1`. -/
theorem main_contract (fuel : Nat) (lim : Int → Int) (allocOk : Bool) (heap : Int → Int)
    (argv : List String) :
    (argv.length ≠ 2 → main fuel lim allocOk heap argv =
      some { status := 1, out := "", err := "Invalid number of arguments\n", calls := [] }) ∧
    (argv.length = 2 → atoi (argv.getD 1 "") ≤ 0 → main fuel lim allocOk heap argv =
      some { status := 1, out := "",
             err := "Invalid input. Please enter a positive integer.\n", calls := [] }) ∧
    (∀ r : Int, argv.length = 2 → 1 ≤ atoi (argv.getD 1 "") →
      sieve_of_eratosthenes fuel (lim (atoi (argv.getD 1 ""))) allocOk heap
        (atoi (argv.getD 1 "")) = some (Outcome.ret r) →
      main fuel lim allocOk heap argv =
        some { status := 0,
               out := "The prime no " ++ toString (atoi (argv.getD 1 "")) ++ " is: " ++
                 toString r ++ "\n",
               err := "", calls := [atoi (argv.getD 1 "")] }) ∧
    (∀ e : Exit, main fuel lim allocOk heap argv = some e →
      (e.status = 0 ↔ (argv.length = 2 ∧ 1 ≤ atoi (argv.getD 1 "") ∧
        ∃ r, sieve_of_eratosthenes fuel (lim (atoi (argv.getD 1 ""))) allocOk heap
          (atoi (argv.getD 1 "")) = some (Outcome.ret r))) ∧
      (∀ m ∈ e.calls, 1 ≤ m)) ∧
    (atoi "0" = 0 ∧ atoi "-3" = -3 ∧ atoi "abc" = 0) := by
  refine ⟨?_, ?_, ?_, ?_, by decide⟩
  · intro h
    unfold main
    rw [if_pos h]
  · intro h1 h2
    unfold main
    rw [if_neg (not_not.mpr h1)]
    dsimp only
    rw [if_pos h2]
  · intro r h1 h2 h3
    have : ¬ atoi (argv.getD 1 "") ≤ 0 := by omega
    unfold main
    rw [if_neg (not_not.mpr h1)]
    dsimp only
    rw [if_neg this, h3]
  · intro e he
    unfold main at he
    by_cases h1 : argv.length = 2
    · rw [if_neg (not_not.mpr h1)] at he
      dsimp only at he
      by_cases h2 : atoi (argv.getD 1 "") ≤ 0
      · rw [if_pos h2] at he
        injection he with he
        subst he
        refine ⟨⟨fun h => absurd h (by decide), fun h => by omega⟩, ?_⟩
        intro m hm
        cases hm
      · rw [if_neg h2] at he
        cases hs : sieve_of_eratosthenes fuel (lim (atoi (argv.getD 1 ""))) allocOk heap
            (atoi (argv.getD 1 "")) with
        | none => rw [hs] at he; cases he
        | some o =>
          rw [hs] at he
          cases o with
          | ret r =>
            injection he with he
            subst he
            refine ⟨⟨fun _ => ⟨h1, by omega, r, rfl⟩, fun _ => rfl⟩, ?_⟩
            intro m hm
            simp only [List.mem_singleton] at hm
            omega
          | exit code er =>
            injection he with he
            subst he
            have hcode : code = 1 := by
              unfold sieve_of_eratosthenes at hs
              by_cases hn1 : atoi (argv.getD 1 "") = 1
              · rw [if_pos hn1] at hs
                cases hs
              · rw [if_neg hn1] at hs
                by_cases ha : allocOk = false
                · rw [if_pos ha] at hs
                  injection hs with hs
                  injection hs with hs
                  exact hs.symm
                · rw [if_neg ha] at hs
                  cases hr : run fuel (lim (atoi (argv.getD 1 ""))) heap (atoi (argv.getD 1 ""))
                    <;> rw [hr] at hs <;> cases hs
            subst hcode
            refine ⟨⟨fun h => absurd h (by simp), fun h => ?_⟩, ?_⟩
            · obtain ⟨_, _, r, hr⟩ := h
              cases hr
            · intro m hm
              simp only [List.mem_singleton] at hm
              omega
    · rw [if_pos h1] at he
      injection he with he
      subst he
      refine ⟨⟨fun h => absurd h (by decide), fun h => absurd h.1 h1⟩, ?_⟩
      intro m hm
      cases hm

/-- C8 fails as stated: the argument "5abc" is not an integer literal, yet `main` exits
with status 0 and prints the line for n = 5 (computed limit 11, result 11). -/
theorem main_accepts_trailing_text :
    isIntegerLiteral "5abc" = false ∧
    main 13 (fun _ => 11) true (fun _ => 0) ["sieve", "5abc"] =
      some { status := 0, out := "The prime no 5 is: 11\n", err := "", calls := [5] } :=
  ⟨by decide, by decide!⟩

/-- The `k`-th evaluation of the condition of the multiples loop is the `k`-th nested call
of `mark`. -/
theorem mark_markHead (L i : Int) :
    ∀ (k f : Nat) (j0 j : Int) (s : State), markHead L i k j0 = some j →
      ∃ s1 : State, mark L i (f + k) j0 s = mark L i f j s1 := by
  intro k
  induction k with
  | zero =>
    intro f j0 j s h
    simp only [markHead, Option.some.injEq] at h
    subst h
    exact ⟨s, rfl⟩
  | succ k ih =>
    intro f j0 j s h
    simp only [markHead] at h
    by_cases hj : j0 ≤ L
    · rw [if_pos hj] at h
      obtain ⟨s1, h1⟩ := ih f (wrap32 (j0 + i)) j
        { s with mem := Function.update s.mem j0 1, trace := Access.wr j0 :: s.trace } h
      refine ⟨s1, ?_⟩
      rw [← h1, show f + (k + 1) = (f + k) + 1 from rfl, mark, if_pos hj]
    · rw [if_neg hj] at h
      cases h

/-- Below `2^30` the multiples loop of an index `i ≥ 2` computes every `j` exactly. -/
theorem markHead_exact (L i : Int) (hi : 2 ≤ i) (hL : L + 2 ≤ 1073741824) :
    ∀ (k : Nat) (j0 j : Int), i * 2 ≤ j0 → j0 ≤ 2 * L + 2 → markHead L i k j0 = some j →
      i * 2 ≤ j ∧ j ≤ 2 * L + 2 ∧ (j ≤ L → wrap32 (j + i) = j + i ∧ j + i ≤ 2147483647) := by
  intro k
  induction k with
  | zero =>
    intro j0 j h1 h2 h
    simp only [markHead, Option.some.injEq] at h
    subst h
    refine ⟨h1, h2, fun hj => ⟨wrap32_of_range _ (by omega) (by omega), by omega⟩⟩
  | succ k ih =>
    intro j0 j h1 h2 h
    simp only [markHead] at h
    by_cases hj : j0 ≤ L
    · rw [if_pos hj, wrap32_of_range (j0 + i) (by omega) (by omega)] at h
      exact ih (j0 + i) j (by omega) (by omega) h
    · rw [if_neg hj] at h
      cases h

theorem multiple_iff (i z L : Int) (hi : 1 ≤ i) :
    (i * 2 ≤ z ∧ z ≤ L ∧ i ∣ z - i * 2) ↔ ∃ m : Int, 2 ≤ m ∧ z = m * i ∧ z ≤ L := by
  constructor
  · rintro ⟨h1, h2, c, hc⟩
    have hc0 : 0 ≤ c := by
      by_contra hneg
      have : c ≤ -1 := by omega
      nlinarith
    exact ⟨c + 2, by omega, by linarith [hc, mul_comm i c], h2⟩
  · rintro ⟨m, hm, rfl, h2⟩
    refine ⟨by nlinarith, h2, m - 2, by ring⟩

/-- The accesses of the multiples loop: it only writes, at `j`, `j + i`, ... up to `L`. -/
theorem mark_trace (L i : Int) (hi : 1 ≤ i) (hLi : L + i < 2147483648) :
    ∀ (fuel : Nat) (j : Int) (s t : State), 0 ≤ j → mark L i fuel j s = some t →
      ∃ ws : List Access, t.trace = ws ++ s.trace ∧
        (j ≤ L → (ws.length : Int) * i ≤ L + i - j) ∧ (L < j → ws = []) ∧
        ∀ a ∈ ws, ∃ z : Int, a = Access.wr z ∧ j ≤ z ∧ z ≤ L ∧ i ∣ z - j := by
  intro fuel
  induction fuel with
  | zero => intro j s t _ h; simp [mark] at h
  | succ f ih =>
    intro j s t hj h
    unfold mark at h
    by_cases hjl : j ≤ L
    · rw [if_pos hjl, wrap32_of_range (j + i) (by omega) (by omega)] at h
      obtain ⟨ws, h1, h2, h3, h4⟩ := ih (j + i) _ t (by omega) h
      refine ⟨ws ++ [Access.wr j], by simp [h1], fun _ => ?_, fun h => absurd hjl (by omega), ?_⟩
      · rw [List.length_append, List.length_singleton]
        push_cast
        by_cases hn : j + i ≤ L
        · have := h2 hn
          linarith
        · rw [h3 (by omega)]
          simp only [List.length_nil, Nat.cast_zero]
          linarith
      · intro a ha
        rcases List.mem_append.mp ha with ha | ha
        · obtain ⟨z, e, z1, z2, z3⟩ := h4 a ha
          refine ⟨z, e, by omega, z2, ?_⟩
          have : z - j = (z - (j + i)) + i := by ring
          rw [this]
          exact dvd_add z3 (dvd_refl i)
        · rw [List.mem_singleton] at ha
          exact ⟨j, ha, le_refl _, hjl, by simp⟩
    · rw [if_neg hjl] at h
      cases h
      exact ⟨[], rfl, fun h => absurd h hjl, fun _ => rfl, fun a ha => by cases ha⟩

theorem reads_writes (ws tr : List Access) (h : ∀ a ∈ ws, ∃ z : Int, a = Access.wr z) :
    reads (ws ++ tr) = reads tr := by
  induction ws with
  | nil => rfl
  | cons a ws ih =>
    obtain ⟨z, rfl⟩ := h _ (List.mem_cons_self _ _)
    simp only [List.cons_append, reads]
    exact ih fun b hb => h b (List.mem_cons_of_mem _ hb)

/-- The accesses of one full pass of the scan: the read of cell `i`, followed, when the cell is
unmarked, by at most `L / i` writes, all of them at multiples `m * i ≤ L` with `m ≥ 2`. -/
theorem scanStep_trace (n L : Int) (fuel : Nat) (s t : State)
    (hL0 : 0 ≤ L) (hL : L + 2 ≤ 1073741824) (hi2 : 2 ≤ s.i)
    (hc0 : 0 ≤ s.count) (hcU : s.count ≤ 1073741824)
    (h : scanStep n L fuel s = Step.next t) :
    ∃ ws : List Access, t.trace = ws ++ Access.rd s.i :: s.trace ∧
      (ws.length : Int) ≤ L / s.i ∧ (s.mem s.i ≠ 0 → ws = []) ∧
      ∀ a ∈ ws, ∃ m : Int, 2 ≤ m ∧ m * s.i ≤ L ∧ a = Access.wr (m * s.i) := by
  have hdiv0 : 0 ≤ L / s.i := Int.ediv_nonneg hL0 (by omega)
  unfold scanStep at h
  rw [wrap32_of_range (L + 1) (by omega) (by omega)] at h
  by_cases h1 : s.i ≤ L + 1
  · rw [if_pos h1] at h
    dsimp only at h
    by_cases h2 : s.mem s.i = 0
    · rw [if_pos h2] at h
      by_cases h3 : s.count = n
      · rw [if_pos h3] at h
        cases h
      · rw [if_neg h3] at h
        rw [wrap32_of_range (s.count + 1) (by omega) (by omega),
          wrap32_of_range (s.i * 2) (by omega) (by omega)] at h
        cases hm : mark L s.i fuel (s.i * 2)
            { mem := s.mem, count := s.count + 1, i := s.i, broke := s.broke,
              trace := Access.rd s.i :: s.trace } with
        | none => rw [hm] at h; cases h
        | some u =>
          rw [hm] at h
          obtain ⟨ws, w1, w2, w3, w4⟩ := mark_trace L s.i (by omega) (by omega) fuel _ _ u
            (by omega) hm
          dsimp only at w1 h
          injection h with h
          subst h
          refine ⟨ws, w1, ?_, fun hne => absurd h2 hne, ?_⟩
          · by_cases hle : s.i * 2 ≤ L
            · have := w2 hle
              exact Int.le_ediv_of_mul_le (by omega) (by linarith)
            · rw [w3 (by omega)]
              exact hdiv0
          · intro a ha
            obtain ⟨z, e, z1, z2, z3⟩ := w4 a ha
            obtain ⟨m, m1, m2, _⟩ := (multiple_iff s.i z L (by omega)).mp ⟨z1, z2, z3⟩
            subst m2
            exact ⟨m, m1, z2, e⟩
    · rw [if_neg h2] at h
      injection h with h
      subst h
      exact ⟨[], rfl, hdiv0, fun _ => rfl, fun a ha => by cases ha⟩
  · rw [if_neg h1] at h
    cases h

/-- The accesses of the last pass of the scan: none when the loop condition fails, the read of
cell `i` when the loop is left through `break`. -/
theorem scanStep_done_trace (n L : Int) (fuel : Nat) (s t : State)
    (hL0 : 0 ≤ L) (hL : L + 2 ≤ 1073741824)
    (h : scanStep n L fuel s = Step.done t) :
    (L + 1 < s.i ∧ t = s) ∨
    (s.i ≤ L + 1 ∧ t.broke = true ∧ t.trace = Access.rd s.i :: s.trace) := by
  unfold scanStep at h
  rw [wrap32_of_range (L + 1) (by omega) (by omega)] at h
  by_cases h1 : s.i ≤ L + 1
  · rw [if_pos h1] at h
    dsimp only at h
    by_cases h2 : s.mem s.i = 0
    · rw [if_pos h2] at h
      by_cases h3 : s.count = n
      · rw [if_pos h3] at h
        injection h with h
        subst h
        exact Or.inr ⟨h1, rfl, rfl⟩
      · rw [if_neg h3] at h
        split at h <;> cases h
    · rw [if_neg h2] at h
      cases h
  · rw [if_neg h1] at h
    injection h with h
    exact Or.inl ⟨by omega, h.symm⟩

/-- At its `k`-th loop head the scan has read `k` cells. -/
theorem head_reads (n L : Int) (fuel : Nat) (heap : Int → Int)
    (hL0 : 0 ≤ L) (hL : L + 2 ≤ 1073741824) :
    ∀ (k : Nat) (s : State), loopHead n L fuel (initState L heap) k = some s →
      reads s.trace = k := by
  intro k
  induction k with
  | zero =>
    intro s h
    simp only [loopHead, Option.some.injEq] at h
    subst h
    rfl
  | succ k ih =>
    intro t h
    obtain ⟨s, hs, hst⟩ := (loopHead_succ n L fuel _ t k).mp h
    obtain ⟨a1, a2, a3, a4, a5⟩ := head_bounds n L fuel heap hL0 hL k s hs
    obtain ⟨ws, w1, _, _, w4⟩ := scanStep_trace n L fuel s t hL0 hL (by omega) (by omega)
      (by omega) hst
    rw [w1, reads_writes ws _ (fun a ha => by
      obtain ⟨m, _, _, e⟩ := w4 a ha
      exact ⟨_, e⟩)]
    simp only [reads]
    rw [ih s hs]

/-- A pass of the scan never hangs when the fuel covers the range of the multiples loop. -/
theorem scanStep_cases (n L : Int) (fuel : Nat) (s : State)
    (hL0 : 0 ≤ L) (hL : L + 2 ≤ 1073741824) (hf : L + 2 ≤ fuel) (hi2 : 2 ≤ s.i)
    (hc0 : 0 ≤ s.count) (hcU : s.count ≤ 1073741824) :
    (∃ t, scanStep n L fuel s = Step.next t) ∨ (∃ t, scanStep n L fuel s = Step.done t) := by
  by_cases h1 : s.i ≤ L + 1
  · by_cases h2 : s.mem s.i = 0 ∧ s.count = n
    · obtain ⟨t, ht, _⟩ := scanStep_break n L fuel s hL0 hL hc0 hcU h1 h2.1 h2.2
      exact Or.inr ⟨t, ht⟩
    · exact Or.inl (scanStep_progress n L fuel s hL0 hL hf hi2 h1 (fun a b => h2 ⟨a, b⟩))
  · exact Or.inr ⟨s, scanStep_exit n L fuel s (by omega) hL (by omega)⟩

theorem head_or_done (n L : Int) (fuel : Nat) (heap : Int → Int)
    (hL0 : 0 ≤ L) (hL : L + 2 ≤ 1073741824) (hf : L + 2 ≤ fuel) :
    ∀ k : Nat, (∃ s, loopHead n L fuel (initState L heap) k = some s) ∨
      (∃ (j : Nat) (s t : State), j < k ∧ loopHead n L fuel (initState L heap) j = some s ∧
        scanStep n L fuel s = Step.done t) := by
  intro k
  induction k with
  | zero => exact Or.inl ⟨_, rfl⟩
  | succ k ih =>
    rcases ih with ⟨s, hs⟩ | ⟨j, s, t, hj, hs, hd⟩
    · obtain ⟨a1, a2, a3, a4, a5⟩ := head_bounds n L fuel heap hL0 hL k s hs
      rcases scanStep_cases n L fuel s hL0 hL hf (by omega) (by omega) (by omega) with
        ⟨t, ht⟩ | ⟨t, ht⟩
      · exact Or.inl ⟨t, (loopHead_succ n L fuel _ t k).mpr ⟨s, hs, ht⟩⟩
      · exact Or.inr ⟨k, s, t, Nat.lt_succ_self k, hs, ht⟩
    · exact Or.inr ⟨j, s, t, Nat.lt_succ_of_lt hj, hs, hd⟩

/-- The scan comes to an end, for every `n`, when the fuel covers the range of the loop
index: it is left at a loop head `k ≤ L`. -/
theorem run_total (n L : Int) (fuel : Nat) (heap : Int → Int)
    (hL0 : 0 ≤ L) (hL : L + 2 ≤ 1073741824) (hf : L + 2 ≤ fuel) :
    ∃ (k : Nat) (s t : State), loopHead n L fuel (initState L heap) k = some s ∧
      scanStep n L fuel s = Step.done t ∧ run fuel L heap n = some t := by
  rcases head_or_done n L fuel heap hL0 hL hf (L.toNat + 1) with ⟨s, hs⟩ | ⟨j, s, t, hj, hs, hd⟩
  · obtain ⟨_, a2, _⟩ := head_bounds n L fuel heap hL0 hL _ s hs
    push_cast at a2
    omega
  · refine ⟨j, s, t, hs, hd, ?_⟩
    unfold run
    apply scan_of_head n L fuel j fuel _ s t hs hd
    have : (j : Int) < fuel := by omega
    exact_mod_cast this

/-- At every loop head `count` is one more than the number of unmarked cells met so far. -/
theorem head_count_unmarked (n L : Int) (fuel : Nat) (heap : Int → Int)
    (hL0 : 0 ≤ L) (hL : L + 2 ≤ 1073741824) :
    ∀ (k : Nat) (s : State), loopHead n L fuel (initState L heap) k = some s →
      s.count = 1 + (unmarkedMet n L fuel (initState L heap) k : Int) := by
  intro k
  induction k with
  | zero =>
    intro s h
    simp only [loopHead, Option.some.injEq] at h
    subst h
    simp [initState, unmarkedMet]
  | succ k ih =>
    intro t h
    obtain ⟨s, hs, hst⟩ := (loopHead_succ n L fuel _ t k).mp h
    obtain ⟨a1, a2, a3, a4, a5⟩ := head_bounds n L fuel heap hL0 hL k s hs
    obtain ⟨b1, b2, b3, b4⟩ := scanStep_next n L fuel s t hL0 hL (by omega) (by omega)
      (by omega) hst
    have e := ih s hs
    simp only [unmarkedMet, hs]
    rcases b4 with ⟨c1, _, c3⟩ | ⟨c1, _, c3, _⟩
    · rw [if_neg c1, c3, e]
      simp
    · rw [if_pos c1, c3, e]
      push_cast
      ring

/-- For `n ≥ 1` the count never passes `n` while the scan goes on. -/
theorem head_count_le (n L : Int) (fuel : Nat) (heap : Int → Int)
    (hn : 1 ≤ n) (hL0 : 0 ≤ L) (hL : L + 2 ≤ 1073741824) :
    ∀ (k : Nat) (s : State), loopHead n L fuel (initState L heap) k = some s →
      s.count ≤ n := by
  intro k
  induction k with
  | zero =>
    intro s h
    simp only [loopHead, Option.some.injEq] at h
    subst h
    exact hn
  | succ k ih =>
    intro t h
    obtain ⟨s, hs, hst⟩ := (loopHead_succ n L fuel _ t k).mp h
    obtain ⟨a1, a2, a3, a4, a5⟩ := head_bounds n L fuel heap hL0 hL k s hs
    obtain ⟨b1, b2, b3, b4⟩ := scanStep_next n L fuel s t hL0 hL (by omega) (by omega)
      (by omega) hst
    have e := ih s hs
    rcases b4 with ⟨_, _, c3⟩ | ⟨_, c2, c3, _⟩
    · rw [c3]; exact e
    · rw [c3]; omega

/-- The code's scan simulates the reference scan: standing at the same index with
`count = c + 1` and the same marks on the cells `0 .. L`, a value returned by the reference
scan is the index at which the code leaves through the `break`. -/
theorem ref_simulation (n L : Int) (fuel : Nat) (heap : Int → Int)
    (hL0 : 0 ≤ L) (hL : L + 2 ≤ 1073741824) (hf : L + 2 ≤ fuel) :
    ∀ (m k : Nat) (s : State) (c : Int) (bitmap : Int → Bool) (r : Int),
      loopHead n L fuel (initState L heap) k = some s →
      (k : Int) + m = L - 1 → s.count = c + 1 →
      (∀ z : Int, 0 ≤ z → z ≤ L → s.mem z = if bitmap z = true then 1 else 0) →
      refScan n L m ((k : Int) + 2) c bitmap = some r →
      ∃ t, run fuel L heap n = some t ∧ t.i = r ∧ t.broke = true := by
  intro m
  induction m with
  | zero => intro k s c bitmap r _ _ _ _ h; simp [refScan] at h
  | succ m ih =>
    intro k s c bitmap r hs hk hc hb h
    obtain ⟨a1, a2, a3, a4, a5⟩ := head_bounds n L fuel heap hL0 hL k s hs
    push_cast at hk
    have hcell := hb s.i (by omega) (by omega)
    rw [a1] at hcell
    simp only [refScan] at h
    by_cases hbi : bitmap ((k : Int) + 2) = false
    · rw [if_pos hbi] at h
      have h0 : s.mem s.i = 0 := by rw [a1, hcell, hbi]; rfl
      by_cases hcn : c + 1 = n
      · rw [if_pos hcn] at h
        injection h with h
        obtain ⟨t, ht, t1, _, t3, _⟩ := scanStep_break n L fuel s hL0 hL (by omega) (by omega)
          (by omega) h0 (by rw [hc]; exact hcn)
        refine ⟨t, ?_, by rw [t1, a1, h], t3⟩
        unfold run
        apply scan_of_head n L fuel k fuel _ s t hs ht
        have : (k : Int) < fuel := by omega
        exact_mod_cast this
      · rw [if_neg hcn] at h
        obtain ⟨u, hu⟩ := scanStep_progress n L fuel s hL0 hL hf (by omega) (by omega)
          (fun _ => by rw [hc]; exact hcn)
        obtain ⟨b1, b2, b3, b4⟩ := scanStep_next n L fuel s u hL0 hL (by omega) (by omega)
          (by omega) hu
        rcases b4 with ⟨c1, _⟩ | ⟨_, _, c3, c4⟩
        · exact absurd h0 c1
        · have hsu := (loopHead_succ n L fuel _ u k).mpr ⟨s, hs, hu⟩
          refine ih (k + 1) u (c + 1) _ r hsu (by push_cast; omega) (by rw [c3, hc]) ?_
            (by push_cast; rw [show (k : Int) + 1 + 2 = (k : Int) + 2 + 1 by ring]; exact h)
          intro z hz0 hzL
          rw [c4 z, a1]
          have hdv : ((k : Int) + 2) ∣ z - ((k : Int) + 2) * 2 ↔ ((k : Int) + 2) ∣ z := by
            constructor
            · intro h
              have : z = (z - ((k : Int) + 2) * 2) + ((k : Int) + 2) * 2 := by ring
              rw [this]
              exact dvd_add h (Dvd.intro _ rfl)
            · intro h
              exact dvd_sub h (Dvd.intro _ rfl)
          by_cases hm : ((k : Int) + 2) * 2 ≤ z ∧ z ≤ L ∧ ((k : Int) + 2) ∣ z - ((k : Int) + 2) * 2
          · rw [if_pos hm]
            have : 2 * ((k : Int) + 2) ≤ z ∧ z ≤ L ∧ ((k : Int) + 2) ∣ z :=
              ⟨by omega, hm.2.1, hdv.mp hm.2.2⟩
            simp [this]
          · rw [if_neg hm]
            have : ¬ (2 * ((k : Int) + 2) ≤ z ∧ z ≤ L ∧ ((k : Int) + 2) ∣ z) :=
              fun h => hm ⟨by omega, h.2.1, hdv.mpr h.2.2⟩
            rw [hb z hz0 hzL]
            simp [this]
    · rw [if_neg hbi] at h
      have hbt : bitmap ((k : Int) + 2) = true := by
        cases hv : bitmap ((k : Int) + 2)
        · exact absurd hv hbi
        · rfl
      have h1 : s.mem s.i ≠ 0 := by rw [a1, hcell, hbt]; decide
      obtain ⟨u, hu⟩ := scanStep_progress n L fuel s hL0 hL hf (by omega) (by omega)
        (fun h0 => absurd h0 h1)
      obtain ⟨b1, b2, b3, b4⟩ := scanStep_next n L fuel s u hL0 hL (by omega) (by omega)
        (by omega) hu
      rcases b4 with ⟨_, c2, c3⟩ | ⟨c1, _⟩
      · have hsu := (loopHead_succ n L fuel _ u k).mpr ⟨s, hs, hu⟩
        refine ih (k + 1) u c bitmap r hsu (by push_cast; omega) (by rw [c3, hc]) ?_
          (by push_cast; rw [show (k : Int) + 1 + 2 = (k : Int) + 2 + 1 by ring]; exact h)
        intro z hz0 hzL
        rw [c2]
        exact hb z hz0 hzL
      · exact absurd c1 h1

/-- Whenever the reference algorithm returns a value, the code returns the same value. -/
theorem ref_refines (n L : Int) (fuel : Nat) (heap : Int → Int) (r : Int)
    (hL : L + 2 ≤ 1073741824) (hf : L + 2 ≤ fuel)
    (h : nth_prime_ref L n = some r) :
    sieve_of_eratosthenes fuel L true heap n = some (Outcome.ret r) ∧
      (n ≠ 1 → ∃ t, run fuel L heap n = some t ∧ t.i = r ∧ t.broke = true) := by
  unfold nth_prime_ref at h
  unfold sieve_of_eratosthenes
  by_cases h1 : n = 1
  · rw [if_pos h1] at h
    injection h with h
    rw [if_pos h1, h]
    exact ⟨rfl, fun hne => absurd h1 hne⟩
  · rw [if_neg h1] at h
    rw [if_neg h1, if_neg (by decide)]
    rcases Int.lt_or_le L 1 with hlt | hL1
    · have : (L - 1).toNat = 0 := by omega
      rw [this] at h
      simp [refScan] at h
    · obtain ⟨t, ht, t1, t2⟩ := ref_simulation n L fuel heap (by omega) hL hf (L - 1).toNat 0
        (initState L heap) 0 (fun _ => false) r rfl (by push_cast; omega) (by simp [initState])
        (fun z hz0 hzL => by simp [initState, hz0, hzL]) (by simpa using h)
      rw [ht]
      exact ⟨by simp [t1], fun _ => ⟨t, rfl, t1, t2⟩⟩

/-- Below `2^30` the index arithmetic of the multiples loop is exact at every index the scan
reaches: neither `i * 2` nor any `j += i` leaves the range of `int`. -/
theorem index_arithmetic_exact (n L : Int) (heap : Int → Int) (fuel k : Nat) (s : State)
    (hL0 : 0 ≤ L) (hL : L + 2 ≤ 1073741824)
    (hs : loopHead n L fuel (initState L heap) k = some s) (hiL : s.i ≤ L + 1) :
    wrap32 (s.i * 2) = s.i * 2 ∧ s.i * 2 ≤ 2147483647 ∧
    ∀ (m : Nat) (j : Int), markHead L s.i m (wrap32 (s.i * 2)) = some j → j ≤ L →
      wrap32 (j + s.i) = j + s.i ∧ j + s.i ≤ 2147483647 := by
  obtain ⟨a1, a2, a3, a4, a5⟩ := head_bounds n L fuel heap hL0 hL k s hs
  have hw : wrap32 (s.i * 2) = s.i * 2 := wrap32_of_range _ (by omega) (by omega)
  refine ⟨hw, by omega, fun m j hm hj => ?_⟩
  rw [hw] at hm
  exact (markHead_exact L s.i (by omega) hL m (s.i * 2) j (le_refl _) (by omega) hm).2.2 hj

/-- Counting conventions below the overflow of the index arithmetic (`L + 2 ≤ 2^30`). At every
loop head the code's `count` is one more than the number `c` of unmarked cells met so far
(the counter of the specification, which starts at 0), and the scan leaves through the
`break` at an index exactly when the cell there is unmarked and it is the `n`-th unmarked
cell met; whenever the reference algorithm of the specification returns a value, the code
returns the same value. -/
theorem counting_conventions_agree (n L : Int) (heap : Int → Int) (fuel : Nat)
    (hLmin : -2147483648 ≤ L) (hL : L + 2 ≤ 1073741824) (hf : L + 2 ≤ fuel) :
    (∀ (k : Nat) (s : State), loopHead n L fuel (initState L heap) k = some s →
      s.count = 1 + (unmarkedMet n L fuel (initState L heap) k : Int) ∧
      ((∃ t, scanStep n L fuel s = Step.done t ∧ t.broke = true ∧ t.i = s.i) ↔
        (s.i ≤ L + 1 ∧ s.mem s.i = 0 ∧
          (unmarkedMet n L fuel (initState L heap) (k + 1) : Int) = n))) ∧
    (∀ r : Int, nth_prime_ref L n = some r →
      sieve_of_eratosthenes fuel L true heap n = some (Outcome.ret r)) := by
  refine ⟨?_, fun r h => (ref_refines n L fuel heap r hL hf h).1⟩
  intro k s hs
  rcases Int.lt_or_le L 0 with hneg | hL0
  · obtain ⟨e, es, hdone⟩ := head_negative_limit n L fuel heap hLmin hneg k s hs
    subst e
    subst es
    refine ⟨by simp [initState, unmarkedMet], ?_⟩
    constructor
    · rintro ⟨t, ht, hb, _⟩
      rw [hdone] at ht
      injection ht with ht
      rw [← ht] at hb
      cases hb
    · rintro ⟨h1, _⟩
      simp only [initState] at h1
      omega
  · obtain ⟨a1, a2, a3, a4, a5⟩ := head_bounds n L fuel heap hL0 hL k s hs
    have hc := head_count_unmarked n L fuel heap hL0 hL k s hs
    refine ⟨hc, ?_⟩
    simp only [unmarkedMet, hs]
    constructor
    · rintro ⟨t, ht, hb, _⟩
      rcases scanStep_done n L fuel s t hL0 hL (by omega) (by omega) ht with
        ⟨_, e⟩ | ⟨h1, h0, hcn, _⟩
      · rw [e, a5] at hb
        cases hb
      · refine ⟨h1, h0, ?_⟩
        rw [if_pos h0]
        push_cast
        omega
    · rintro ⟨h1, h0, hcn⟩
      rw [if_pos h0] at hcn
      push_cast at hcn
      obtain ⟨t, ht, t1, _, t3, _⟩ := scanStep_break n L fuel s hL0 hL (by omega) (by omega) h1 h0
        (by omega)
      exact ⟨t, ht, t3, t1⟩

/-- Marking step below the overflow of the index arithmetic (`L + 2 ≤ 2^30`). No pass of the
scan clears a marked cell. When the scan stands at an unmarked index `i ≤ L` and does not
leave through the `break`, the pass sets exactly the cells `m * i` with `m ≥ 2`,
`m * i ≤ L` to 1 and leaves every other cell as it was, cell `i` included; its only writes
are at those cells. -/
theorem marking_step_frame (n L : Int) (heap : Int → Int) (fuel k : Nat) (s : State)
    (hL0 : 0 ≤ L) (hL : L + 2 ≤ 1073741824) (hf : L + 2 ≤ fuel)
    (hs : loopHead n L fuel (initState L heap) k = some s) :
    (∀ t : State, (scanStep n L fuel s = Step.next t ∨ scanStep n L fuel s = Step.done t) →
      ∀ z : Int, s.mem z ≠ 0 → t.mem z ≠ 0) ∧
    (s.i ≤ L → s.mem s.i = 0 → s.count ≠ n →
      ∃ t : State, scanStep n L fuel s = Step.next t ∧
        (∀ z : Int, (∃ m : Int, 2 ≤ m ∧ z = m * s.i ∧ z ≤ L) → t.mem z = 1) ∧
        (∀ z : Int, ¬ (∃ m : Int, 2 ≤ m ∧ z = m * s.i ∧ z ≤ L) → t.mem z = s.mem z) ∧
        t.mem s.i = 0 ∧
        ∃ ws : List Access, t.trace = ws ++ Access.rd s.i :: s.trace ∧
          ∀ a ∈ ws, ∃ m : Int, 2 ≤ m ∧ m * s.i ≤ L ∧ a = Access.wr (m * s.i)) := by
  obtain ⟨a1, a2, a3, a4, a5⟩ := head_bounds n L fuel heap hL0 hL k s hs
  constructor
  · intro t ht z hz
    rcases ht with ht | ht
    · obtain ⟨_, _, _, b4⟩ := scanStep_next n L fuel s t hL0 hL (by omega) (by omega)
        (by omega) ht
      rcases b4 with ⟨_, c2, _⟩ | ⟨_, _, _, c4⟩
      · rw [c2]; exact hz
      · rw [c4 z]
        split
        · decide
        · exact hz
    · rcases scanStep_done n L fuel s t hL0 hL (by omega) (by omega) ht with
        ⟨_, e⟩ | ⟨_, _, _, _, _, _, e⟩
      · rw [e]; exact hz
      · rw [e]; exact hz
  · intro hiL h0 hc
    obtain ⟨t, ht⟩ := scanStep_progress n L fuel s hL0 hL hf (by omega) (by omega)
      (fun _ => hc)
    obtain ⟨_, _, _, b4⟩ := scanStep_next n L fuel s t hL0 hL (by omega) (by omega)
      (by omega) ht
    obtain ⟨ws, w1, _, _, w4⟩ := scanStep_trace n L fuel s t hL0 hL (by omega) (by omega)
      (by omega) ht
    rcases b4 with ⟨c1, _⟩ | ⟨_, _, _, c4⟩
    · exact absurd h0 c1
    · have hiff := fun z => multiple_iff s.i z L (by omega)
      refine ⟨t, ht, fun z hz => ?_, fun z hz => ?_, ?_, ws, w1, w4⟩
      · rw [c4 z, if_pos ((hiff z).mpr hz)]
      · rw [c4 z, if_neg (fun h => hz ((hiff z).mp h))]
      · rw [c4 s.i, if_neg (by omega)]
        exact h0

/-- Termination below the overflow of the index arithmetic (`L + 2 ≤ 2^30`). For a limit
`L ≥ 0` the kernel returns once the fuel reaches `L + 2`, after at most `L` reads of the
scan; the multiples loop of every index `2 ≤ i ≤ L + 1` comes to an end after at most
`L / i` iterations, each of them a write. -/
theorem kernel_terminates (n L : Int) (heap : Int → Int) (fuel : Nat)
    (hn : 2 ≤ n) (hL0 : 0 ≤ L) (hL : L + 2 ≤ 1073741824) (hf : L + 2 ≤ fuel) :
    (∃ t : State, run fuel L heap n = some t ∧
      sieve_of_eratosthenes fuel L true heap n = some (Outcome.ret t.i) ∧
      (reads t.trace : Int) ≤ L) ∧
    (∀ (i : Int) (s : State), 2 ≤ i → i ≤ L + 1 →
      ∃ (t : State) (ws : List Access), mark L i fuel (wrap32 (i * 2)) s = some t ∧
        t.trace = ws ++ s.trace ∧ (ws.length : Int) ≤ L / i ∧
        ∀ a ∈ ws, ∃ z : Int, a = Access.wr z) := by
  constructor
  · obtain ⟨k, s, t, hs, hd, hr⟩ := run_total n L fuel heap hL0 hL hf
    obtain ⟨a1, a2, a3, a4, a5⟩ := head_bounds n L fuel heap hL0 hL k s hs
    have hk := head_reads n L fuel heap hL0 hL k s hs
    refine ⟨t, hr, ?_, ?_⟩
    · unfold sieve_of_eratosthenes
      rw [if_neg (by omega), if_neg (by decide), hr]
      rfl
    · rcases scanStep_done_trace n L fuel s t hL0 hL hd with ⟨_, e⟩ | ⟨h1, _, e⟩
      · rw [e, hk]
        exact a2
      · rw [e]
        simp only [reads]
        rw [hk]
        push_cast
        omega
  · intro i s hi2 hiL
    rw [wrap32_of_range (i * 2) (by omega) (by omega)]
    obtain ⟨t, ht⟩ := mark_total L i (by omega) (by omega) fuel (i * 2) s (by omega)
      (by omega) (by omega)
    obtain ⟨ws, w1, w2, w3, w4⟩ := mark_trace L i (by omega) (by omega) fuel (i * 2) s t
      (by omega) ht
    refine ⟨t, ws, ht, w1, ?_, fun a ha => ?_⟩
    · by_cases hle : i * 2 ≤ L
      · have := w2 hle
        exact Int.le_ediv_of_mul_le (by omega) (by linarith)
      · rw [w3 (by omega)]
        exact Int.ediv_nonneg hL0 (by omega)
    · obtain ⟨z, e, _⟩ := w4 a ha
      exact ⟨z, e⟩

/-- C15: the result is not a function of `n` alone. For n = 3 the kernel computes the limit 4
and allocates the cells 0 .. 4; two runs whose memory differs only in the byte at index 5,
outside the allocation, return 5 and 6. -/
theorem result_depends_on_foreign_byte :
    (IsLimit 3 4 ∧ ∀ L : Int, IsLimit 3 L → L = 4) ∧
    (∀ z : Int, z ≠ 5 → (fun _ : Int => (0 : Int)) z = (fun k : Int => if k = 5 then 1 else 0) z) ∧
    (∀ z : Int, 0 ≤ z → z ≤ 4 →
      (initState 4 (fun _ => 0)).mem z = (initState 4 (fun k => if k = 5 then 1 else 0)).mem z) ∧
    sieve_of_eratosthenes 6 4 true (fun _ => 0) 3 = some (Outcome.ret 5) ∧
    sieve_of_eratosthenes 6 4 true (fun k => if k = 5 then 1 else 0) 3 = some (Outcome.ret 6) ∧
    (∀ (fuel : Nat) (heap heap2 : Int → Int), (6 : Int) ≤ fuel → heap 5 = 0 → heap2 5 ≠ 0 →
      sieve_of_eratosthenes fuel 4 true heap 3 = some (Outcome.ret 5) ∧
      sieve_of_eratosthenes fuel 4 true heap2 3 = some (Outcome.ret 6)) := by
  refine ⟨⟨isLimit_values.2.1, fun L h => (computed_limits L).2.1 h⟩, ?_, ?_, ?_, ?_, ?_⟩
  · intro z hz
    simp [hz]
  · intro z h0 h4
    simp [initState, h0, h4]
  · have := sieve_three (fun _ => 0) 6 (by decide)
    rw [this]
    rfl
  · have := sieve_three (fun k => if k = 5 then 1 else 0) 6 (by decide)
    rw [this]
    rfl
  · intro fuel heap heap2 hf h1 h2
    rw [sieve_three heap fuel hf, sieve_three heap2 fuel hf, if_pos h1, if_neg h2]
    exact ⟨rfl, rfl⟩

/-- Result range and silent exhaustion below the overflow of the index arithmetic
(`L + 2 ≤ 2^30`). For `n ≥ 2` and a limit `L ≥ 1` the kernel returns a value in `[2, L + 2]`
and reports no error; a run that leaves through the `break` returns at most `L + 1`; a run
whose scan is left by its condition has met fewer than `n` unmarked cells in its `L`
passes and returns exactly `L + 2`. For n = 2 with L = 1 this path returns 3, whatever cell
2 holds. -/
theorem result_range (n L : Int) (heap : Int → Int) (fuel : Nat)
    (hn : 2 ≤ n) (hL1 : 1 ≤ L) (hL : L + 2 ≤ 1073741824) (hf : L + 2 ≤ fuel) :
    (∃ t : State, run fuel L heap n = some t ∧
      sieve_of_eratosthenes fuel L true heap n = some (Outcome.ret t.i) ∧
      2 ≤ t.i ∧ t.i ≤ L + 2 ∧ (t.broke = true → t.i ≤ L + 1) ∧
      (t.broke = false → t.i = L + 2 ∧
        (unmarkedMet n L fuel (initState L heap) L.toNat : Int) < n)) ∧
    (∀ (h : Int → Int) (f : Nat), (3 : Int) ≤ f →
      sieve_of_eratosthenes f 1 true h 2 = some (Outcome.ret 3) ∧
      (run f 1 h 2).map (fun t => (t.broke, t.i)) = some (false, 3)) := by
  have hL0 : 0 ≤ L := by omega
  constructor
  · obtain ⟨k, s, t, hs, hd, hr⟩ := run_total n L fuel heap hL0 hL hf
    obtain ⟨a1, a2, a3, a4, a5⟩ := head_bounds n L fuel heap hL0 hL k s hs
    have hc := head_count_unmarked n L fuel heap hL0 hL k s hs
    have hle := head_count_le n L fuel heap (by omega) hL0 hL k s hs
    refine ⟨t, hr, ?_, ?_⟩
    · unfold sieve_of_eratosthenes
      rw [if_neg (by omega), if_neg (by decide), hr]
      rfl
    · rcases scanStep_done n L fuel s t hL0 hL (by omega) (by omega) hd with
        ⟨h1, e⟩ | ⟨h1, _, _, ti, _, tb, _⟩
      · subst e
        have hk : L.toNat = k := by omega
        rw [hk]
        exact ⟨by omega, by omega, fun hb => (by rw [a5] at hb; cases hb),
          fun _ => ⟨by omega, by omega⟩⟩
      · refine ⟨by omega, by omega, fun _ => by omega, fun hb => ?_⟩
        rw [tb] at hb
        cases hb
  · intro h f hf3
    refine ⟨sieve_two h f hf3, ?_⟩
    obtain ⟨t, ht, hcase⟩ := run_short_limit 2 1 f h (by decide) (by decide) (by omega)
      (by rw [show (2 : Nat) - 1 = 1 from rfl, nth_prime_1]; decide)
    rw [show run f 1 h 2 = _ from ht]
    rcases hcase with ⟨_, _, hcnt, _⟩ | ⟨_, ti, tb⟩
    · rw [show (1 : Int).toNat + 1 = 2 from rfl, count_prime_two] at hcnt
      exact absurd hcnt (by decide)
    · simp [ti, tb]

/-- Enclosure of `ln 2` to twelve digits, from 40 terms of the logarithm series at 1/2. -/
theorem log_two_fine :
    (0.69314718055901 : Real) ≤ Real.log 2 ∧ Real.log 2 ≤ 0.69314718056084 := by
  obtain ⟨s1, s2⟩ := log_enclosure (1 / 2) 1 (1 / 2) (1 / 2) (1 / 2) (1 / 2)
    (-0.69314718056084) (-0.69314718055901) 40
    (by norm_num) (by norm_num) (by norm_num) (by norm_num)
    (by rw [abs_of_pos (by norm_num)]; norm_num)
    (by rw [abs_of_pos (by norm_num)]; norm_num) (by norm_num) (by norm_num)
    (by norm_num [Finset.sum_range_succ]) (by norm_num [Finset.sum_range_succ])
  have e : Real.log (1 / 2) = -Real.log 2 := by
    rw [one_div, Real.log_inv]
  rw [Real.log_one, e] at s1 s2
  constructor <;> linarith

set_option maxHeartbeats 1600000 in
/-- Enclosure of the exact value of the limit expression for n = 100628275. -/
theorem rosser_large :
    (2147483641.82 : Real) ≤ rosser 100628275 ∧ rosser 100628275 ≤ 2147483641.84 := by
  obtain ⟨h1, h2⟩ := log_two_fine
  have hk : Real.log 134217728 = 27 * Real.log 2 := by
    have : (134217728 : Real) = 2 ^ 27 := by norm_num
    rw [this, Real.log_pow]
    norm_num
  have h16 : Real.log 16 = 4 * Real.log 2 := by
    have : (16 : Real) = 2 ^ 4 := by norm_num
    rw [this, Real.log_pow]
    norm_num
  obtain ⟨s1, s2⟩ := log_enclosure 100628275 134217728 (100628275 / 134217728)
    (100628275 / 134217728) (33589453 / 134217728) (33589453 / 134217728)
    (-0.2880300353800) (-0.2880300353404) 17
    (by norm_num) (by norm_num) (by norm_num) (by norm_num)
    (by rw [abs_of_pos (by norm_num)]; norm_num)
    (by rw [abs_of_pos (by norm_num)]; norm_num) (by norm_num) (by norm_num)
    (by norm_num [Finset.sum_range_succ]) (by norm_num [Finset.sum_range_succ])
  rw [hk] at s1 s2
  have a1 : (18.426943839713 : Real) ≤ Real.log 100628275 := by linarith
  have a2 : Real.log 100628275 ≤ 18.426943839803 := by linarith
  obtain ⟨t1, t2⟩ := log_enclosure (Real.log 100628275) 16 (18.426943839713 / 16) (18.426943839803 / 16)
    (18.426943839713 / 16 - 1) (18.426943839803 / 16 - 1) (0.1412252103629) (0.1412252104209) 12
    (by norm_num) (by norm_num) (by linarith) (by linarith)
    (by rw [abs_of_neg (by norm_num)]; norm_num)
    (by rw [abs_of_neg (by norm_num)]; norm_num) (by norm_num) (by norm_num)
    (by norm_num [Finset.sum_range_succ]) (by norm_num [Finset.sum_range_succ])
  rw [h16] at t1 t2
  unfold rosser
  simp only [Nat.cast_ofNat]
  constructor <;> linarith

/-- The limit the kernel computes for n = 100628275 is 2147483642, six below `2^31`. -/
theorem computed_limit_large :
    IsLimit 100628275 2147483642 ∧ ∀ L : Int, IsLimit 100628275 L → L = 2147483642 := by
  obtain ⟨b1, b2⟩ := rosser_large
  refine ⟨⟨rosser 100628275, by simp, ?_⟩, fun L h =>
    limit_of_bounds 100628275 2147483642 2147483641.82 2147483641.84 b1 b2
      (by norm_num) (by norm_num) L h⟩
  symm
  rw [Int.ceil_eq_iff]
  constructor
  · push_cast; linarith
  · push_cast; linarith

/-- The multiples loop when no `j += i` overflows: `e` is the first value of `j` past the
limit. -/
theorem mark_spec_e (L i e : Int) (hi : 1 ≤ i) (heL : L < e) (he : e < 2147483648) :
    ∀ (fuel : Nat) (j : Int) (s t : State), -2147483648 ≤ j → j ≤ e → i ∣ e - j →
      mark L i fuel j s = some t →
      t.count = s.count ∧ t.i = s.i ∧ t.broke = s.broke ∧
      ∀ z : Int, t.mem z = if j ≤ z ∧ z ≤ L ∧ i ∣ z - j then 1 else s.mem z := by
  intro fuel
  induction fuel with
  | zero => intro j s t _ _ _ h; simp [mark] at h
  | succ f ih =>
    intro j s t hj hje hd h
    unfold mark at h
    by_cases hjl : j ≤ L
    · have hle : i ≤ e - j := Int.le_of_dvd (by omega) hd
      rw [if_pos hjl, wrap32_of_range (j + i) (by omega) (by omega)] at h
      have hd2 : i ∣ e - (j + i) := by
        have : e - (j + i) = (e - j) - i := by ring
        rw [this]
        exact dvd_sub hd (dvd_refl i)
      obtain ⟨h1, h2, h3, h4⟩ := ih (j + i) _ t (by omega) (by omega) hd2 h
      refine ⟨h1, h2, h3, fun z => ?_⟩
      rw [h4 z]
      by_cases hz : z = j
      · subst hz
        have : ¬ (z + i ≤ z ∧ z ≤ L ∧ i ∣ z - (z + i)) := by omega
        rw [if_neg this]
        simp [hjl]
      · have hupd : Function.update s.mem j 1 z = s.mem z := Function.update_noteq hz _ _
        simp only [hupd]
        have hiff : (j + i ≤ z ∧ z ≤ L ∧ i ∣ z - (j + i)) ↔ (j ≤ z ∧ z ≤ L ∧ i ∣ z - j) := by
          constructor
          · rintro ⟨a, b, c⟩
            refine ⟨by omega, b, ?_⟩
            have : z - j = (z - (j + i)) + i := by ring
            rw [this]
            exact dvd_add c (dvd_refl i)
          · rintro ⟨a, b, c⟩
            have hpos : 0 < z - j := by omega
            have hle : i ≤ z - j := Int.le_of_dvd hpos c
            refine ⟨by omega, b, ?_⟩
            have : z - (j + i) = (z - j) - i := by ring
            rw [this]
            exact dvd_sub c (dvd_refl i)
        by_cases hc : j ≤ z ∧ z ≤ L ∧ i ∣ z - j
        · rw [if_pos hc, if_pos (hiff.mpr hc)]
        · rw [if_neg hc, if_neg (fun h => hc (hiff.mp h))]
    · rw [if_neg hjl] at h
      cases h
      refine ⟨rfl, rfl, rfl, fun z => ?_⟩
      have : ¬ (j ≤ z ∧ z ≤ L ∧ i ∣ z - j) := by omega
      rw [if_neg this]

theorem mark_total_e (L i e : Int) (hi : 1 ≤ i) (heL : L < e) (he : e < 2147483648) :
    ∀ (fuel : Nat) (j : Int) (s : State), -2147483648 ≤ j → j ≤ e → i ∣ e - j →
      e - j < fuel → ∃ t, mark L i fuel j s = some t := by
  intro fuel
  induction fuel with
  | zero => intro j s _ hje _ h; simp at h; omega
  | succ f ih =>
    intro j s hj hje hd h
    unfold mark
    by_cases hjl : j ≤ L
    · have hle : i ≤ e - j := Int.le_of_dvd (by omega) hd
      rw [if_pos hjl, wrap32_of_range (j + i) (by omega) (by omega)]
      push_cast at h
      have hd2 : i ∣ e - (j + i) := by
        have : e - (j + i) = (e - j) - i := by ring
        rw [this]
        exact dvd_sub hd (dvd_refl i)
      exact ih (j + i) _ (by omega) (by omega) hd2 (by omega)
    · rw [if_neg hjl]
      exact ⟨s, rfl⟩

/-- A full pass of the scan when the multiples loop of an unmarked index does not overflow:
`e` is a multiple of `i` past the limit that still is an `int`. -/
theorem scanStep_next_e (n L : Int) (fuel : Nat) (s t : State)
    (hL0 : 0 ≤ L) (hL : L + 2 < 2147483648) (hi2 : 2 ≤ s.i)
    (hc0 : 0 ≤ s.count) (hcU : s.count + 1 < 2147483648)
    (hnw : s.mem s.i = 0 → ∃ e : Int, L < e ∧ e < 2147483648 ∧ s.i ∣ e ∧ s.i * 2 ≤ e)
    (h : scanStep n L fuel s = Step.next t) :
    s.i ≤ L + 1 ∧ t.i = s.i + 1 ∧ t.broke = s.broke ∧
      ((s.mem s.i ≠ 0 ∧ t.mem = s.mem ∧ t.count = s.count) ∨
       (s.mem s.i = 0 ∧ s.count ≠ n ∧ t.count = s.count + 1 ∧
          ∀ z : Int, t.mem z =
            if s.i * 2 ≤ z ∧ z ≤ L ∧ s.i ∣ z - s.i * 2 then 1 else s.mem z)) := by
  unfold scanStep at h
  rw [wrap32_of_range (L + 1) (by omega) (by omega)] at h
  by_cases h1 : s.i ≤ L + 1
  · rw [if_pos h1] at h
    refine ⟨h1, ?_⟩
    dsimp only at h
    by_cases h2 : s.mem s.i = 0
    · rw [if_pos h2] at h
      obtain ⟨e, e1, e2, e3, e4⟩ := hnw h2
      by_cases h3 : s.count = n
      · rw [if_pos h3] at h
        cases h
      · rw [if_neg h3] at h
        rw [wrap32_of_range (s.count + 1) (by omega) (by omega),
          wrap32_of_range (s.i * 2) (by omega) (by omega)] at h
        cases hm : mark L s.i fuel (s.i * 2)
            { mem := s.mem, count := s.count + 1, i := s.i, broke := s.broke,
              trace := Access.rd s.i :: s.trace } with
        | none => rw [hm] at h; cases h
        | some u =>
          rw [hm] at h
          obtain ⟨m1, m2, m3, m4⟩ := mark_spec_e L s.i e (by omega) e1 e2 fuel _ _ u
            (by omega) e4 (dvd_sub e3 (Dvd.intro _ rfl)) hm
          dsimp only at m1 m2 m3 m4 h
          rw [wrap32_of_range (u.i + 1) (by omega) (by omega)] at h
          injection h with h
          subst h
          exact ⟨by simp [m2], m3, Or.inr ⟨h2, h3, m1, m4⟩⟩
    · rw [if_neg h2] at h
      rw [wrap32_of_range (s.i + 1) (by omega) (by omega)] at h
      injection h with h
      subst h
      exact ⟨rfl, rfl, Or.inl ⟨h2, rfl, rfl⟩⟩
  · rw [if_neg h1] at h
    cases h

theorem scanStep_progress_e (n L : Int) (fuel : Nat) (s : State)
    (hL0 : 0 ≤ L) (hL : L + 2 < 2147483648) (hf : (2147483648 : Int) ≤ fuel)
    (hi2 : 2 ≤ s.i) (h1 : s.i ≤ L + 1)
    (h3 : s.mem s.i = 0 → s.count ≠ n ∧
      ∃ e : Int, L < e ∧ e < 2147483648 ∧ s.i ∣ e ∧ s.i * 2 ≤ e) :
    ∃ t, scanStep n L fuel s = Step.next t := by
  unfold scanStep
  rw [wrap32_of_range (L + 1) (by omega) (by omega), if_pos h1]
  dsimp only
  by_cases h2 : s.mem s.i = 0
  · obtain ⟨hcn, e, e1, e2, e3, e4⟩ := h3 h2
    rw [if_pos h2, if_neg hcn, wrap32_of_range (s.i * 2) (by omega) (by omega)]
    obtain ⟨u, hu⟩ := mark_total_e L s.i e (by omega) e1 e2 fuel (s.i * 2)
      { mem := s.mem, count := wrap32 (s.count + 1), i := s.i, broke := s.broke,
        trace := Access.rd s.i :: s.trace } (by omega) e4 (dvd_sub e3 (Dvd.intro _ rfl))
      (by omega)
    rw [hu]
    exact ⟨_, rfl⟩
  · rw [if_neg h2]
    exact ⟨_, rfl⟩

/-- The sieve invariant up to the first prime whose multiples loop overflows: as long as
every prime below `K` has a multiple past the limit that still is an `int`, the loop heads
at the indices up to `K` carry the marks of an exact sieve. -/
theorem head_inv_e (n L : Int) (fuel : Nat) (heap : Int → Int) (K : Nat)
    (hL0 : 0 ≤ L) (hL : L + 2 < 2147483648)
    (hnw : ∀ q : Nat, q.Prime → q < K →
      ∃ e : Int, L < e ∧ e < 2147483648 ∧ (q : Int) ∣ e ∧ (q : Int) * 2 ≤ e) :
    ∀ (k : Nat) (s : State), loopHead n L fuel (initState L heap) k = some s →
      k + 2 ≤ K → (k : Int) + 1 ≤ L →
      s.i = (k : Int) + 2 ∧ s.broke = false ∧ MemInv L heap (k + 2) s.mem ∧
      s.count = 1 + (Nat.count Nat.Prime (k + 2) : Int) := by
  intro k
  induction k with
  | zero =>
    intro s h _ _
    simp only [loopHead, Option.some.injEq] at h
    subst h
    refine ⟨by simp [initState], rfl, ?_, ?_⟩
    · intro z
      have hnm : ¬ Marked (0 + 2) z := by
        rintro ⟨p, hp, hlt, _, _⟩
        have := hp.two_le
        omega
      constructor
      · intro hz
        exact Or.inr ⟨hnm, by simp [initState, hz]⟩
      · intro hz
        simp [initState, hz]
    · simp [initState, count_prime_two]
  | succ k ih =>
    intro t h hK hk
    obtain ⟨s, hs, hst⟩ := (loopHead_succ n L fuel _ t k).mp h
    push_cast at hk
    obtain ⟨a1, a5, i1, i2⟩ := ih s hs (by omega) (by omega)
    have hcnt : Nat.count Nat.Prime (k + 2) ≤ k + 2 := Nat.count_le Nat.Prime
    have hcell := (i1 s.i).1 (by omega)
    rw [a1] at hcell
    have hself := marked_self (k + 2) (by omega)
    push_cast at hself
    have hsucc : Nat.count Nat.Prime (k + 1 + 2) =
        Nat.count Nat.Prime (k + 2) + if (k + 2).Prime then 1 else 0 :=
      Nat.count_succ Nat.Prime (k + 2)
    obtain ⟨b1, b2, b3, b4⟩ := scanStep_next_e n L fuel s t hL0 hL (by omega) (by omega)
      (by omega)
      (by
        intro h0
        rw [a1] at h0 ⊢
        have hnm : ¬ Marked (k + 2) ((k : Int) + 2) := by
          rcases hcell with ⟨_, m⟩ | ⟨m, _⟩
          · rw [h0] at m; exact absurd m (by decide)
          · exact m
        have hp : (k + 2).Prime := hself.mp hnm
        have := hnw (k + 2) hp (by omega)
        push_cast at this
        exact this) hst
    refine ⟨by push_cast; omega, by rw [b3, a5], ?_, ?_⟩
    · rcases b4 with ⟨c1, c2, c3⟩ | ⟨c1, c2, c3, c4⟩
      · rw [a1] at c1
        have hmk : Marked (k + 2) ((k : Int) + 2) := by
          rcases hcell with ⟨m, _⟩ | ⟨_, m⟩
          · exact m
          · exact absurd m c1
        have hnp : ¬ (k + 2).Prime := fun hp => (hself.mpr hp) hmk
        have hmarked : ∀ z, Marked (k + 1 + 2) z ↔ Marked (k + 2) z := by
          intro z
          rw [show k + 1 + 2 = (k + 2) + 1 from rfl, marked_succ]
          constructor
          · rintro (m | ⟨hp, _⟩)
            · exact m
            · exact absurd hp hnp
          · exact Or.inl
        intro z
        rw [c2, hmarked z]
        exact i1 z
      · rw [a1] at c1
        have hnm : ¬ Marked (k + 2) ((k : Int) + 2) := by
          rcases hcell with ⟨_, m⟩ | ⟨m, _⟩
          · rw [c1] at m; exact absurd m (by decide)
          · exact m
        have hp : (k + 2).Prime := hself.mp hnm
        intro z
        have hm := marked_succ (k + 2) z
        rw [show k + 1 + 2 = (k + 2) + 1 from rfl]
        rw [c4 z, a1]
        have hdv : ((k : Int) + 2) ∣ z - ((k : Int) + 2) * 2 ↔ ((k : Int) + 2) ∣ z := by
          constructor
          · intro h
            have : z = (z - ((k : Int) + 2) * 2) + ((k : Int) + 2) * 2 := by ring
            rw [this]
            exact dvd_add h (Dvd.intro _ rfl)
          · intro h
            exact dvd_sub h (Dvd.intro _ rfl)
        constructor
        · intro hz
          by_cases hc : ((k : Int) + 2) * 2 ≤ z ∧ z ≤ L ∧ ((k : Int) + 2) ∣ z - ((k : Int) + 2) * 2
          · rw [if_pos hc]
            refine Or.inl ⟨hm.mpr (Or.inr ⟨hp, ?_, ?_⟩), rfl⟩
            · push_cast; exact hdv.mp hc.2.2
            · push_cast; omega
          · rw [if_neg hc]
            rcases (i1 z).1 hz with ⟨m, e⟩ | ⟨m, e⟩
            · exact Or.inl ⟨hm.mpr (Or.inl m), e⟩
            · refine Or.inr ⟨?_, e⟩
              intro hmk
              rcases hm.mp hmk with m2 | ⟨_, d, l⟩
              · exact m m2
              · push_cast at d l
                exact hc ⟨by omega, hz.2, hdv.mpr d⟩
        · intro hz
          have hc : ¬ (((k : Int) + 2) * 2 ≤ z ∧ z ≤ L ∧
              ((k : Int) + 2) ∣ z - ((k : Int) + 2) * 2) := by
            intro hc
            exact hz ⟨by omega, hc.2.1⟩
          rw [if_neg hc]
          exact (i1 z).2 hz
    · rcases b4 with ⟨c1, c2, c3⟩ | ⟨c1, c2, c3, c4⟩
      · rw [a1] at c1
        have hmk : Marked (k + 2) ((k : Int) + 2) := by
          rcases hcell with ⟨m, _⟩ | ⟨_, m⟩
          · exact m
          · exact absurd m c1
        have hnp : ¬ (k + 2).Prime := fun hp => (hself.mpr hp) hmk
        rw [c3, i2, hsucc, if_neg hnp]
        simp
      · rw [a1] at c1
        have hnm : ¬ Marked (k + 2) ((k : Int) + 2) := by
          rcases hcell with ⟨_, m⟩ | ⟨m, _⟩
          · rw [c1] at m; exact absurd m (by decide)
          · exact m
        have hp : (k + 2).Prime := hself.mp hnm
        rw [c3, i2, hsucc, if_pos hp]
        push_cast
        ring

/-- The loop heads up to the first prime whose multiples loop overflows exist when `n`
exceeds that prime: the count cannot have reached `n` before. -/
theorem head_exists_e (n L : Int) (fuel : Nat) (heap : Int → Int) (K : Nat)
    (hL0 : 0 ≤ L) (hL : L + 2 < 2147483648) (hf : (2147483648 : Int) ≤ fuel)
    (hKn : (K : Int) ≤ n)
    (hnw : ∀ q : Nat, q.Prime → q < K →
      ∃ e : Int, L < e ∧ e < 2147483648 ∧ (q : Int) ∣ e ∧ (q : Int) * 2 ≤ e) :
    ∀ k : Nat, k + 2 ≤ K → (k : Int) + 1 ≤ L →
      ∃ s, loopHead n L fuel (initState L heap) k = some s := by
  intro k
  induction k with
  | zero => intro _ _; exact ⟨_, rfl⟩
  | succ k ih =>
    intro hK hkL
    push_cast at hkL
    obtain ⟨s, hs⟩ := ih (by omega) (by omega)
    obtain ⟨a1, a5, i1, i2⟩ := head_inv_e n L fuel heap K hL0 hL hnw k s hs (by omega)
      (by omega)
    have hcnt : Nat.count Nat.Prime (k + 2) ≤ k + 2 := Nat.count_le Nat.Prime
    have hcell := (i1 s.i).1 (by omega)
    rw [a1] at hcell
    have hself := marked_self (k + 2) (by omega)
    push_cast at hself
    obtain ⟨t, ht⟩ := scanStep_progress_e n L fuel s hL0 hL hf (by omega) (by omega)
      (by
        intro h0
        rw [a1] at h0 ⊢
        have hnm : ¬ Marked (k + 2) ((k : Int) + 2) := by
          rcases hcell with ⟨_, m⟩ | ⟨m, _⟩
          · rw [h0] at m; exact absurd m (by decide)
          · exact m
        have hp : (k + 2).Prime := hself.mp hnm
        have hc2 : Nat.count Nat.Prime (k + 2) < k + 2 := by
          have hadd := Nat.count_add Nat.Prime 2 k
          have hle : Nat.count (fun j => Nat.Prime (2 + j)) k ≤ k := Nat.count_le _
          rw [count_prime_two] at hadd
          rw [Nat.add_comm k 2, hadd]
          omega
        have := hnw (k + 2) hp (by omega)
        push_cast at this
        refine ⟨?_, this⟩
        rw [i2]
        omega)
    exact ⟨t, (loopHead_succ n L fuel _ t k).mpr ⟨s, hs, ht⟩⟩

/-- A stretch of the multiples loop without overflow: `m` iterations take `j` to `v`, writing
the cells `j, j + i, ...` below `v`. -/
theorem mark_upto (L i v : Int) (hi : 1 ≤ i) (hvL : v ≤ L + i) (hv : v < 2147483648) :
    ∀ (m f : Nat) (j : Int) (s : State), -2147483648 ≤ j → j + (m : Int) * i = v →
      ∃ (s1 : State) (ws : List Access), mark L i (f + m) j s = mark L i f v s1 ∧
        s1.count = s.count ∧ s1.i = s.i ∧ s1.broke = s.broke ∧
        (∀ z : Int, s1.mem z = if j ≤ z ∧ z < v ∧ i ∣ z - j then 1 else s.mem z) ∧
        s1.trace = ws ++ s.trace ∧ ws.length = m ∧ (0 < m → Access.wr j ∈ ws) ∧
        ∀ a ∈ ws, ∃ z : Int, a = Access.wr z := by
  intro m
  induction m with
  | zero =>
    intro f j s _ h
    simp only [Nat.cast_zero, zero_mul, add_zero] at h
    subst h
    refine ⟨s, [], rfl, rfl, rfl, rfl, fun z => ?_, rfl, rfl, fun h => absurd h (by decide),
      fun a ha => by cases ha⟩
    rw [if_neg (by omega)]
  | succ m ih =>
    intro f j s hj h
    have hmi : 0 ≤ (m : Int) * i := mul_nonneg (Int.natCast_nonneg m) (by omega)
    have hsplit : ((m + 1 : Nat) : Int) * i = (m : Int) * i + i := by push_cast; ring
    rw [hsplit] at h
    have hjl : j ≤ L := by omega
    obtain ⟨s1, ws, h1, h2, h3, h4, h5, h6, h7, h8, h9⟩ := ih f (j + i)
      { s with mem := Function.update s.mem j 1, trace := Access.wr j :: s.trace }
      (by omega) (by omega)
    refine ⟨s1, ws ++ [Access.wr j], ?_, h2, h3, h4, fun z => ?_, by simp [h6], by simp [h7],
      fun _ => by simp, fun a ha => ?_⟩
    · rw [show f + (m + 1) = (f + m) + 1 from rfl, mark, if_pos hjl,
        wrap32_of_range (j + i) (by omega) (by omega)]
      exact h1
    · rw [h5 z]
      by_cases hz : z = j
      · subst hz
        have : ¬ (z + i ≤ z ∧ z < v ∧ i ∣ z - (z + i)) := by omega
        rw [if_neg this]
        have : z ≤ z ∧ z < v ∧ i ∣ z - z := ⟨le_refl _, by omega, by simp⟩
        rw [if_pos this]
        simp
      · have hupd : Function.update s.mem j 1 z = s.mem z := Function.update_noteq hz _ _
        simp only [hupd]
        have hiff : (j + i ≤ z ∧ z < v ∧ i ∣ z - (j + i)) ↔ (j ≤ z ∧ z < v ∧ i ∣ z - j) := by
          constructor
          · rintro ⟨a, b, c⟩
            refine ⟨by omega, b, ?_⟩
            have : z - j = (z - (j + i)) + i := by ring
            rw [this]
            exact dvd_add c (dvd_refl i)
          · rintro ⟨a, b, c⟩
            have hpos : 0 < z - j := by omega
            have hle : i ≤ z - j := Int.le_of_dvd hpos c
            refine ⟨by omega, b, ?_⟩
            have : z - (j + i) = (z - j) - i := by ring
            rw [this]
            exact dvd_sub c (dvd_refl i)
        by_cases hc : j ≤ z ∧ z < v ∧ i ∣ z - j
        · rw [if_pos hc, if_pos (hiff.mpr hc)]
        · rw [if_neg hc, if_neg (fun h => hc (hiff.mp h))]
    · rcases List.mem_append.mp ha with ha | ha
      · exact h9 a ha
      · rw [List.mem_singleton] at ha
        exact ⟨j, ha⟩

/-- The values of `j` along a stretch of the multiples loop without overflow. -/
theorem markHead_upto (L i v : Int) (hi : 1 ≤ i) (hvL : v ≤ L + i) (hv : v < 2147483648) :
    ∀ (m k : Nat) (j : Int), -2147483648 ≤ j → j + (m : Int) * i = v →
      markHead L i (m + k) j = markHead L i k v := by
  intro m
  induction m with
  | zero =>
    intro k j _ h
    simp only [Nat.cast_zero, zero_mul, add_zero] at h
    subst h
    rw [Nat.zero_add]
  | succ m ih =>
    intro k j hj h
    have hmi : 0 ≤ (m : Int) * i := mul_nonneg (Int.natCast_nonneg m) (by omega)
    have hsplit : ((m + 1 : Nat) : Int) * i = (m : Int) * i + i := by push_cast; ring
    rw [hsplit] at h
    rw [show m + 1 + k = (m + k) + 1 by omega, markHead, if_pos (by omega),
      wrap32_of_range (j + i) (by omega) (by omega)]
    exact ih k (j + i) (by omega) (by omega)

/-- Every prime below 13 has a multiple between the limit `2^31 - 6` and `2^31`. -/
theorem nowrap_below_13 (q : Nat) (hp : q.Prime) (hq : q < 13) :
    ∃ e : Int, (2147483642 : Int) < e ∧ e < 2147483648 ∧ (q : Int) ∣ e ∧ (q : Int) * 2 ≤ e := by
  interval_cases q
  · exact absurd hp (by decide)
  · exact absurd hp (by decide)
  · exact ⟨2147483644, by decide, by decide, by decide, by decide⟩
  · exact ⟨2147483643, by decide, by decide, by decide, by decide⟩
  · exact absurd hp (by decide)
  · exact ⟨2147483645, by decide, by decide, by decide, by decide⟩
  · exact absurd hp (by decide)
  · exact ⟨2147483646, by decide, by decide, by decide, by decide⟩
  · exact absurd hp (by decide)
  · exact absurd hp (by decide)
  · exact absurd hp (by decide)
  · exact ⟨2147483646, by decide, by decide, by decide, by decide⟩
  · exact absurd hp (by decide)

/-- The pass of the scan at the unmarked index 13 with the limit `2^31 - 6`, in arithmetic
modulo `2^32`: the multiples loop writes the multiples of 13 up to 2147483637; the next
`j += i` leaves the range of `int` and continues at -2147483646, from where the loop writes
every 13th cell up to 2147483641; the sum overflows again to -2147483642, and the loop ends
at 2147483645 after having written every 13th cell from there as well. -/
theorem pass_thirteen (n : Int) (fuel : Nat) (s : State) (hf : (2147483648 : Int) ≤ fuel)
    (hi : s.i = 13) (h0 : s.mem 13 = 0) (hc0 : 0 ≤ s.count) (hcU : s.count ≤ 1073741824)
    (hcn : s.count ≠ n) :
    ∃ (t : State) (ws : List Access), scanStep n 2147483642 fuel s = Step.next t ∧
      t.i = 14 ∧ t.count = s.count + 1 ∧ t.broke = s.broke ∧
      (∀ z : Int, t.mem z =
        if (26 ≤ z ∧ z ≤ 2147483637 ∧ (13 : Int) ∣ z - 26) ∨
            (-2147483646 ≤ z ∧ z ≤ 2147483641 ∧ (13 : Int) ∣ z + 2147483646) ∨
            (-2147483642 ≤ z ∧ z ≤ 2147483632 ∧ (13 : Int) ∣ z + 2147483642)
          then 1 else s.mem z) ∧
      t.trace = ws ++ Access.rd 13 :: s.trace ∧ ws.length = 825955247 ∧
      Access.wr (-2147483646) ∈ ws ∧ ∀ a ∈ ws, ∃ z : Int, a = Access.wr z := by
  obtain ⟨mem, count, i, broke, trace⟩ := s
  simp only at hi h0 hc0 hcU hcn
  subst hi
  obtain ⟨m1, hm1⟩ : ∃ m : Nat, m = 165191047 := ⟨_, rfl⟩
  obtain ⟨m2, hm2⟩ : ∃ m : Nat, m = 330382099 := ⟨_, rfl⟩
  obtain ⟨g, rfl⟩ : ∃ g : Nat, fuel = g + 1 + m2 + 1 + m2 + 1 + m1 :=
    ⟨fuel - 825955248, by omega⟩
  have w1 : wrap32 (2147483642 + 1) = 2147483643 := by decide
  have w2 : wrap32 (13 * 2) = 26 := by decide
  have w3 : wrap32 (2147483637 + 13) = -2147483646 := by decide
  have w4 : wrap32 (2147483641 + 13) = -2147483642 := by decide
  have w5 : wrap32 (13 + 1) = 14 := by decide
  obtain ⟨s1, ws1, a1, a2, a3, a4, a5, a6, a7, a8, a9⟩ :=
    mark_upto 2147483642 13 2147483637 (by decide) (by decide) (by decide) m1
      (g + 1 + m2 + 1 + m2 + 1) 26
      { mem := mem, count := wrap32 (count + 1), i := 13, broke := broke,
        trace := Access.rd 13 :: trace } (by decide) (by omega)
  obtain ⟨s2, ws2, b1, b2, b3, b4, b5, b6, b7, b8, b9⟩ :=
    mark_upto 2147483642 13 2147483641 (by decide) (by decide) (by decide) m2
      (g + 1 + m2 + 1) (-2147483646)
      { s1 with mem := Function.update s1.mem 2147483637 1,
                trace := Access.wr 2147483637 :: s1.trace } (by decide) (by omega)
  obtain ⟨s3, ws3, c1, c2, c3, c4, c5, c6, c7, c8, c9⟩ :=
    mark_upto 2147483642 13 2147483645 (by decide) (by decide) (by decide) m2
      (g + 1) (-2147483642)
      { s2 with mem := Function.update s2.mem 2147483641 1,
                trace := Access.wr 2147483641 :: s2.trace } (by decide) (by omega)
  have hmark : mark 2147483642 13 (g + 1 + m2 + 1 + m2 + 1 + m1) 26
      { mem := mem, count := wrap32 (count + 1), i := 13, broke := broke,
        trace := Access.rd 13 :: trace } = some s3 := by
    rw [a1, mark, if_pos (by decide), w3, b1, mark, if_pos (by decide), w4, c1, mark,
      if_neg (by decide)]
  refine ⟨{ s3 with i := wrap32 (s3.i + 1) },
    ws3 ++ Access.wr 2147483641 :: (ws2 ++ Access.wr 2147483637 :: ws1), ?_, ?_, ?_, ?_, ?_, ?_,
    ?_, ?_, ?_⟩
  · unfold scanStep
    dsimp only
    rw [w1, if_pos (by decide), if_pos h0, if_neg hcn, w2, hmark]
  · show wrap32 (s3.i + 1) = 14
    rw [c3, b3, a3]
    exact w5
  · show s3.count = count + 1
    rw [c2, b2, a2]
    exact wrap32_of_range _ (by omega) (by omega)
  · show s3.broke = broke
    rw [c4, b4, a4]
  · intro z
    show s3.mem z = _
    rw [c5 z]
    simp only [Function.update_apply, b5 z, a5 z]
    by_cases h3 : -2147483642 ≤ z ∧ z < 2147483645 ∧ (13 : Int) ∣ z - -2147483642
    · rw [if_pos h3, if_pos (Or.inr (Or.inr (by omega)))]
    · rw [if_neg h3]
      by_cases e2 : z = 2147483641
      · rw [if_pos e2, if_pos (Or.inr (Or.inl (by omega)))]
      · rw [if_neg e2]
        by_cases h2 : -2147483646 ≤ z ∧ z < 2147483641 ∧ (13 : Int) ∣ z - -2147483646
        · rw [if_pos h2, if_pos (Or.inr (Or.inl (by omega)))]
        · rw [if_neg h2]
          by_cases e1 : z = 2147483637
          · rw [if_pos e1, if_pos (Or.inl (by omega))]
          · rw [if_neg e1]
            by_cases h1 : 26 ≤ z ∧ z < 2147483637 ∧ (13 : Int) ∣ z - 26
            · rw [if_pos h1, if_pos (Or.inl (by omega))]
            · rw [if_neg h1, if_neg]
              rintro (h | h | h)
              · exact h1 (by omega)
              · exact h2 (by omega)
              · exact h3 (by omega)
  · show s3.trace = _
    rw [c6, b6, a6]
    simp
  · simp only [List.length_append, List.length_cons, c7, b7, a7]
    omega
  · refine List.mem_append_right _ (List.mem_cons_of_mem _ (List.mem_append_left _ ?_))
    exact b8 (by omega)
  · intro a ha
    rcases List.mem_append.mp ha with h | h
    · exact c9 a h
    · rcases List.mem_cons.mp h with h | h
      · exact ⟨_, h⟩
      · rcases List.mem_append.mp h with h | h
        · exact b9 a h
        · rcases List.mem_cons.mp h with h | h
          · exact ⟨_, h⟩
          · exact a9 a h

theorem not_marked_prime (m q : Nat) (hq : q.Prime) (hm : m ≤ q) : ¬ Marked m (q : Int) := by
  rintro ⟨p, hp, hlt, hd, _⟩
  have hd2 : p ∣ q := Int.natCast_dvd_natCast.mp hd
  rcases hq.eq_one_or_self_of_dvd p hd2 with h | h
  · exact hp.one_lt.ne h.symm
  · omega

theorem count_prime_thirteen : Nat.count Nat.Prime 13 = 5 :=
  count_prime_eq 13 5 (by decide) (by decide)

/-- The run with the limit `2^31 - 6` up to the pass at the index 13, whose multiples loop
overflows: the loop head at 13 carries the marks of an exact sieve of the primes below 13,
and the pass at 13 is the one described by `pass_thirteen`. -/
theorem overflow_run (n : Int) (heap : Int → Int) (fuel : Nat) (hn : 13 ≤ n)
    (hf : (2147483648 : Int) ≤ fuel) :
    ∃ (s t : State) (ws : List Access),
      loopHead n 2147483642 fuel (initState 2147483642 heap) 11 = some s ∧
      s.i = 13 ∧ s.count = 6 ∧ s.broke = false ∧
      (s.mem 13 = 0 ∧ s.mem 14 = 1 ∧ s.mem 15 = 1 ∧ s.mem 16 = 1 ∧ s.mem 17 = 0 ∧
        s.mem 18 = 1 ∧ s.mem 19 = 0) ∧
      scanStep n 2147483642 fuel s = Step.next t ∧ t.i = 14 ∧ t.count = 7 ∧
      t.broke = false ∧
      (∀ z : Int, t.mem z =
        if (26 ≤ z ∧ z ≤ 2147483637 ∧ (13 : Int) ∣ z - 26) ∨
            (-2147483646 ≤ z ∧ z ≤ 2147483641 ∧ (13 : Int) ∣ z + 2147483646) ∨
            (-2147483642 ≤ z ∧ z ≤ 2147483632 ∧ (13 : Int) ∣ z + 2147483642)
          then 1 else s.mem z) ∧
      t.trace = ws ++ Access.rd 13 :: s.trace ∧ ws.length = 825955247 ∧
      Access.wr (-2147483646) ∈ ws ∧ ∀ a ∈ ws, ∃ z : Int, a = Access.wr z := by
  obtain ⟨s, hs⟩ := head_exists_e n 2147483642 fuel heap 13 (by decide) (by decide) hf
    (by exact_mod_cast hn) nowrap_below_13 11 (by decide) (by decide)
  obtain ⟨a1, a5, i1, i2⟩ := head_inv_e n 2147483642 fuel heap 13 (by decide) (by decide)
    nowrap_below_13 11 s hs (by decide) (by decide)
  have hi : s.i = 13 := by rw [a1]; rfl
  have hc : s.count = 6 := by
    rw [i2, show 11 + 2 = 13 from rfl, count_prime_thirteen]
    rfl
  have hmk : ∀ (z p : Nat), p.Prime → p < 13 → p ∣ z → 2 * p ≤ z → (z : Int) ≤ 2147483642 →
      s.mem (z : Int) = 1 := by
    intro z p hp hlt hd h2 hz
    rcases (i1 (z : Int)).1 ⟨Int.natCast_nonneg z, hz⟩ with ⟨_, e⟩ | ⟨m, _⟩
    · exact e
    · exact absurd ⟨p, hp, hlt, Int.natCast_dvd_natCast.mpr hd, by exact_mod_cast h2⟩ m
  have hun : ∀ q : Nat, q.Prime → 13 ≤ q → (q : Int) ≤ 2147483642 → s.mem (q : Int) = 0 := by
    intro q hq hge hz
    rcases (i1 (q : Int)).1 ⟨Int.natCast_nonneg q, hz⟩ with ⟨m, _⟩ | ⟨_, e⟩
    · exact absurd m (not_marked_prime 13 q hq hge)
    · exact e
  have c13 : s.mem 13 = 0 := hun 13 (by decide) (by decide) (by decide)
  have c14 : s.mem 14 = 1 := hmk 14 2 (by decide) (by decide) (by decide) (by decide) (by decide)
  have c15 : s.mem 15 = 1 := hmk 15 3 (by decide) (by decide) (by decide) (by decide) (by decide)
  have c16 : s.mem 16 = 1 := hmk 16 2 (by decide) (by decide) (by decide) (by decide) (by decide)
  have c17 : s.mem 17 = 0 := hun 17 (by decide) (by decide) (by decide)
  have c18 : s.mem 18 = 1 := hmk 18 2 (by decide) (by decide) (by decide) (by decide) (by decide)
  have c19 : s.mem 19 = 0 := hun 19 (by decide) (by decide) (by decide)
  obtain ⟨t, ws, t1, t2, t3, t4, t5, t6, t7, t8, t9⟩ := pass_thirteen n fuel s hf hi c13
    (by omega) (by omega) (by omega)
  exact ⟨s, t, ws, hs, hi, hc, a5, ⟨c13, c14, c15, c16, c17, c18, c19⟩, t1, t2,
    by rw [t3, hc]; rfl, by rw [t4, a5], t5, t6, t7, t8, t9⟩

/-- The values of `j` in the multiples loop of the index 13 with the limit `2^31 - 6`: the
loop reaches 2147483637, the last multiple of 13 within the limit, and the next value is
`2147483637 + 13` reduced modulo `2^32`. -/
theorem markHead_thirteen :
    markHead 2147483642 13 165191047 26 = some 2147483637 ∧
    markHead 2147483642 13 165191048 26 = some (-2147483646) := by
  obtain ⟨m, hm⟩ : ∃ m : Nat, m = 165191047 := ⟨_, rfl⟩
  have h0 := markHead_upto 2147483642 13 2147483637 (by decide) (by decide) (by decide) m 0 26
    (by decide) (by omega)
  have h1 := markHead_upto 2147483642 13 2147483637 (by decide) (by decide) (by decide) m 1 26
    (by decide) (by omega)
  have w3 : wrap32 (2147483637 + 13) = -2147483646 := by decide
  have e1 : markHead 2147483642 13 1 2147483637 = some (-2147483646) := by
    simp only [markHead]
    rw [if_pos (by decide), w3]
  rw [e1] at h1
  rw [hm] at h0 h1
  exact ⟨h0, h1⟩

/-- C11: the index arithmetic overflows for n = 100628275. The kernel computes the limit
2147483642 = `2^31 - 6`; the passes at 2, 3, 5, 7 and 11 stay within `int`; the twelfth pass
stands at the unmarked index 13 with a count of 6, its multiples loop starts at 26 and
reaches `j = 2147483637`, which is within the limit, and `j += i` then has the value
2147483650, above `2^31 - 1`: reduced modulo `2^32` the loop continues at -2147483646. -/
theorem index_arithmetic_wraps :
    IsLimit 100628275 2147483642 ∧
    ∀ (L : Int) (heap : Int → Int) (fuel : Nat), IsLimit 100628275 L →
      (2147483648 : Int) ≤ fuel →
      L = 2147483642 ∧
      ∃ s : State, loopHead 100628275 L fuel (initState L heap) 11 = some s ∧
        s.i = 13 ∧ s.i ≤ L ∧ s.mem s.i = 0 ∧ s.count ≠ 100628275 ∧
        wrap32 (s.i * 2) = s.i * 2 ∧
        markHead L s.i 165191047 (wrap32 (s.i * 2)) = some 2147483637 ∧
        (2147483637 : Int) ≤ L ∧ (2147483647 : Int) < 2147483637 + s.i ∧
        wrap32 (2147483637 + s.i) ≠ 2147483637 + s.i ∧
        markHead L s.i 165191048 (wrap32 (s.i * 2)) = some (-2147483646) ∧
        ∀ (f : Nat) (u : State), ∃ u1 : State,
          mark L s.i (f + 165191048) (wrap32 (s.i * 2)) u = mark L s.i f (-2147483646) u1 := by
  refine ⟨computed_limit_large.1, fun L heap fuel hL hf => ?_⟩
  have e := computed_limit_large.2 L hL
  subst e
  obtain ⟨s, t, ws, hs, hi, hc, hb, ⟨c13, _⟩, _⟩ :=
    overflow_run 100628275 heap fuel (by decide) hf
  refine ⟨rfl, s, hs, hi, by rw [hi]; decide, by rw [hi]; exact c13, by rw [hc]; decide, ?_⟩
  rw [hi]
  have w2 : wrap32 (13 * 2) = 26 := by decide
  rw [w2]
  exact ⟨by decide, markHead_thirteen.1, by decide, by decide, by decide, markHead_thirteen.2,
    fun f u => mark_markHead 2147483642 13 165191048 f 26 (-2147483646) u markHead_thirteen.2⟩

/-- C13: the marking step leaves its frame for n = 100628275 (limit 2147483642). At the
unmarked index 13 the pass does not return, and in arithmetic modulo `2^32` its multiples loop,
after the overflow of `j`, writes the cell at index -2147483646, in front of the bitmap, and
sets cell 17, which was clear and is no multiple of 13. -/
theorem marking_step_leaves_frame :
    IsLimit 100628275 2147483642 ∧
    ∀ (L : Int) (heap : Int → Int) (fuel : Nat), IsLimit 100628275 L →
      (2147483648 : Int) ≤ fuel →
      L = 2147483642 ∧
      ∃ s t : State, loopHead 100628275 L fuel (initState L heap) 11 = some s ∧
        s.i = 13 ∧ s.i ≤ L ∧ s.mem s.i = 0 ∧ s.count ≠ 100628275 ∧
        scanStep 100628275 L fuel s = Step.next t ∧
        s.mem 17 = 0 ∧ t.mem 17 = 1 ∧ (¬ ∃ m : Int, 17 = m * s.i) ∧
        Access.wr (-2147483646) ∈ t.trace := by
  refine ⟨computed_limit_large.1, fun L heap fuel hL hf => ?_⟩
  have e := computed_limit_large.2 L hL
  subst e
  obtain ⟨s, t, ws, hs, hi, hc, hb, ⟨c13, _, _, _, c17, _⟩, t1, _, _, _, t5, t6, _, t8, _⟩ :=
    overflow_run 100628275 heap fuel (by decide) hf
  refine ⟨rfl, s, t, hs, hi, by rw [hi]; decide, by rw [hi]; exact c13, by rw [hc]; decide, t1,
    c17, by rw [t5 17, if_pos (by decide)], ?_, ?_⟩
  · rw [hi]
    rintro ⟨m, hm⟩
    omega
  · rw [t6]
    exact List.mem_append_left _ t8

end Sieve
